import Mathlib

/-!
The `uc` driver: path resolution, listing cache and chunked upload

A shallow embedding of `drivers/uc/driver.go`.

* Go values of type `(T, error)` are `Except Error T`; a bare `error` result is
  `Except Error Unit` (`.ok ()` is `nil`).
* The process-wide state the driver touches (the listing cache, the temporary
  directory) and the log of calls made to collaborators are carried explicitly
  in a `World`.
* Collaborators whose code is not part of `driver.go` (the remote API helpers,
  the operating system) are fields of `Collab`; each answers as a function of
  the whole call history, so a collaborator may answer the same request
  differently at different times.
* Recursion that Go leaves unbounded (`File`/`Files` calling each other, the
  part loop) is driven by a fuel counter. For `File` and `Files` a sufficient
  amount is computed from the path; for the part loop the amount is a
  parameter, and `none` stands for a call that has not returned.
-/

set_option autoImplicit false

/-- One octet of payload. -/
abbrev Byte := Nat

/-- Error values that can surface from the driver. `remote` and `os` carry an
uninterpreted code; `runtimePanic` stands for a Go run-time panic, which is not
an `error` value but unwinds through deferred calls the same way. -/
inductive Error where
  | ErrPathNotFound
  | ErrEmptyFile
  | EOF
  | ErrUnexpectedEOF
  | remote (code : Nat)
  | os (code : Nat)
  | runtimePanic
  deriving DecidableEq

deriving instance DecidableEq for Except

namespace model

/-- The fields of `model.Account` the driver reads. -/
structure Account where
  Name : String
  RootFolder : String
  AccessToken : String
  UpdatedAt : Option Nat
  deriving DecidableEq

/-- The fields of `model.File` the driver fills in (`Type_` is Go's `Type`). -/
structure File where
  Id : String
  Name : String
  Size : Int
  Type_ : Nat
  Driver : String
  UpdatedAt : Option Nat
  deriving DecidableEq

/-- The upload source `model.FileStream`: `File` is the byte sequence its reader
delivers, `ReadErr` the error the reader reports after those bytes (`none` for a
clean end of stream), `Size` the declared size (a `uint64`). -/
structure FileStream where
  File : List Byte
  ReadErr : Option Error
  Size : Nat
  ParentPath : String
  Name : String
  MIMEType : String
  deriving DecidableEq

/-- Go: `GetSize() uint64`. -/
def FileStream.GetSize (file : FileStream) : Nat := file.Size % 2 ^ 64

/-- Go: `GetMIMEType() string`. -/
def FileStream.GetMIMEType (file : FileStream) : String := file.MIMEType

end model

namespace conf

/-- Modelled from the spec: the constant `conf.FOLDER` (declared outside
`driver.go`), the `kind` tag of a folder entry. -/
def FOLDER : Nat := 1

end conf

namespace uc

/-- The `data` object of the pre-negotiation response. -/
structure UpPreData where
  TaskId : String
  deriving DecidableEq

/-- The `metadata` object of the pre-negotiation response; `PartSize` is a Go `int`. -/
structure UpPreMetadata where
  PartSize : Int
  deriving DecidableEq

/-- The response of `UpPre`, reduced to the fields `Upload` reads. -/
structure UpPreResp where
  Data : UpPreData
  Metadata : UpPreMetadata
  deriving DecidableEq

end uc

/-- The ways `make([]byte, len)` ends: the buffer is provided; the run time
panics because the length is negative or above what it can ever allocate; or
the process dies of the fatal error "out of memory". -/
inductive MakeResult where
  | ok
  | lenOutOfRange
  | outOfMemory
  deriving DecidableEq

/-- One call made to a collaborator, with its arguments and its answer. -/
inductive Event where
  | GetFiles (id : String) (account : model.Account) (resp : Except Error (List model.File))
  | UpPre (file : model.FileStream) (parentId : String) (account : model.Account)
      (resp : Except Error uc.UpPreResp)
  | UpHash (md5 sha1 taskId : String) (account : model.Account) (resp : Except Error Bool)
  | UpPart (pre : uc.UpPreResp) (mineType : String) (partNumber : Int) (bytes : List Byte)
      (account : model.Account) (resp : Except Error String)
  | UpCommit (pre : uc.UpPreResp) (md5s : List String) (account : model.Account)
      (resp : Except Error Unit)
  | UpFinish (pre : uc.UpPreResp) (account : model.Account) (resp : Except Error Unit)
  | Make (len : Int) (resp : MakeResult)
  | TempFile (name : Nat)
  | Remove (name : Nat)
  deriving DecidableEq

/-- The local input/output steps of `Upload` that can fail for reasons outside
the program (disk full, bad descriptor, ...), in program order. -/
inductive LocalStep where
  | copyIn
  | seekAfterCopy
  | hashMD5
  | seekAfterMD5
  | hashSHA1
  | seekAfterSHA1
  deriving DecidableEq

/-- The collaborators of the driver. Every answer may depend on the list of
calls made so far. -/
structure Collab where
  /-- Remote listing of the folder with the given id (`driver.GetFiles`). -/
  GetFiles : List Event → String → model.Account → Except Error (List model.File)
  /-- Pre-negotiation (`driver.UpPre`). -/
  UpPre : List Event → model.FileStream → String → model.Account → Except Error uc.UpPreResp
  /-- Hash check (`driver.UpHash`). -/
  UpHash : List Event → String → String → String → model.Account → Except Error Bool
  /-- Upload of one part (`driver.UpPart`). -/
  UpPart : List Event → uc.UpPreResp → String → Int → List Byte → model.Account →
    Except Error String
  /-- Commit (`driver.UpCommit`). -/
  UpCommit : List Event → uc.UpPreResp → List String → model.Account → Except Error Unit
  /-- Finish (`driver.UpFinish`). -/
  UpFinish : List Event → uc.UpPreResp → model.Account → Except Error Unit
  /-- Whether `ioutil.TempFile` fails, and otherwise the random part of the name. -/
  TempFile : List Event → Except Error Nat
  /-- Whether a local input/output step fails. -/
  LocalErr : List Event → LocalStep → Option Error
  /-- Whether the machine has the memory for a buffer of that many bytes. -/
  Memory : List Event → Nat → Bool
  /-- The digest function `crypto/md5`. -/
  MD5 : List Byte → List Byte
  /-- The digest function `crypto/sha1`. -/
  SHA1 : List Byte → List Byte

/-- The listing cache: the most recent binding of a key comes first. -/
abbrev Cache := List ((String × model.Account) × List model.File)

/-- Modelled from the spec: the cache-store collaborator's `get(key)`, keyed by
`(path, account)`; `none` is a miss. -/
def Cache.get (key : String × model.Account) : Cache → Option (List model.File)
  | [] => none
  | (k, v) :: rest => if k = key then some v else Cache.get key rest

/-- The state the driver reads and writes: the listing cache, the log of
collaborator calls, and the names of the files in the temporary directory. -/
structure World where
  cache : Cache
  trace : List Event
  temps : List Nat
  deriving DecidableEq

namespace base

/-- Modelled from the spec: `base.GetCache`, a lookup under `(path, account)`;
Go's `err == nil` is `some`. -/
def GetCache (path : String) (account : model.Account) (w : World) : Option (List model.File) :=
  Cache.get (path, account) w.cache

/-- Modelled from the spec: `base.SetCache`, binding `(path, account)` to the
listing. -/
def SetCache (path : String) (files : List model.File) (account : model.Account)
    (w : World) : World :=
  { w with cache := ((path, account), files) :: w.cache }

end base

namespace utils

/-- Go: `strings.TrimRight(s, "/")` on the characters of `s`. -/
def trimRightSlash (cs : List Char) : List Char :=
  (cs.reverse.dropWhile (fun c => c == '/')).reverse

/-- Modelled from the spec: `utils.ParsePath` (declared outside `driver.go`),
which normalises a path to "leading slash, no trailing slash except root":
trailing slashes are trimmed and a leading slash is added when missing. -/
def ParsePath (path : String) : String :=
  let t := trimRightSlash path.data
  if t.head? = some '/' then ⟨t⟩ else ⟨'/' :: t⟩

end utils

namespace filepath

/-- Go: `filepath.Split` with separator `/`: the path is cut right after its
last slash; without a slash the directory is empty. -/
def Split (path : String) : String × String :=
  let r := path.data.reverse
  (⟨(r.dropWhile (fun c => c != '/')).reverse⟩, ⟨(r.takeWhile (fun c => c != '/')).reverse⟩)

end filepath

/-- Records a call in the log. -/
def World.log (w : World) (e : Event) : World :=
  { w with trace := w.trace ++ [e] }

namespace uc

/-- Go: `driver.Config().Name`. -/
def ConfigName : String := "uc"

/-- The call `driver.GetFiles(id, account)`, logged. -/
def GetFiles (env : Collab) (id : String) (account : model.Account) (w : World) :
    Except Error (List model.File) × World :=
  let resp := env.GetFiles w.trace id account
  (resp, w.log (Event.GetFiles id account resp))

/-- Go: the first entry of `files` whose `Name` equals `name` (the `for ... range`
scan of `File`). -/
def lookupName (name : String) : List model.File → Option model.File
  | [] => none
  | file :: rest => if file.Name = name then some file else lookupName name rest

mutual

/-- Go: `func (driver uc) File(path, account)`, with a fuel counter for the
mutual recursion with `Files`. -/
def FileFuel (env : Collab) : Nat → String → model.Account → World →
    Option (Except Error model.File × World)
  | 0, _, _, _ => none
  | fuel + 1, path, account, w =>
    let path := utils.ParsePath path
    if path = "/" then
      some (.ok { Id := account.RootFolder, Name := account.Name, Size := 0,
                  Type_ := conf.FOLDER, Driver := ConfigName,
                  UpdatedAt := account.UpdatedAt }, w)
    else
      let dir := (filepath.Split path).1
      let name := (filepath.Split path).2
      match FilesFuel env fuel dir account w with
      | none => none
      | some (.error err, w1) => some (.error err, w1)
      | some (.ok files, w1) =>
        match lookupName name files with
        | some file => some (.ok file, w1)
        | none => some (.error Error.ErrPathNotFound, w1)

/-- Go: `func (driver uc) Files(path, account)`, with a fuel counter for the
mutual recursion with `File`. -/
def FilesFuel (env : Collab) : Nat → String → model.Account → World →
    Option (Except Error (List model.File) × World)
  | 0, _, _, _ => none
  | fuel + 1, path, account, w =>
    let path := utils.ParsePath path
    match base.GetCache path account w with
    | some files => some (.ok files, w)
    | none =>
      match FileFuel env fuel path account w with
      | none => none
      | some (.error err, w1) => some (.error err, w1)
      | some (.ok file, w1) =>
        match GetFiles env file.Id account w1 with
        | (.error err, w2) => some (.error err, w2)
        | (.ok files, w2) =>
          if files.length > 0 then
            some (.ok files, base.SetCache path files account w2)
          else
            some (.ok files, w2)

end

/-- Fuel that always suffices to resolve `path`: two units per character of the
normalised path. -/
def fuelFor (path : String) : Nat := 2 * (utils.ParsePath path).length + 2

/-- Go: `driver.File(path, account)`. -/
def File (env : Collab) (path : String) (account : model.Account) (w : World) :
    Option (Except Error model.File × World) :=
  FileFuel env (fuelFor path) path account w

/-- Go: `driver.Files(path, account)`. -/
def Files (env : Collab) (path : String) (account : model.Account) (w : World) :
    Option (Except Error (List model.File) × World) :=
  FilesFuel env (fuelFor path) path account w

end uc

namespace hex

/-- The lower-case hexadecimal digit of a value below sixteen. -/
def digit (n : Nat) : Char := "0123456789abcdef".data.getD n '0'

/-- Go: `hex.EncodeToString`: two digits per byte, high nibble first. -/
def EncodeToString (bs : List Byte) : String :=
  ⟨bs.flatMap (fun b => [digit (b / 16 % 16), digit (b % 16)])⟩

end hex

/-- An open `*os.File`: its name in the temporary directory, its content and
the read/write offset. -/
structure OsFile where
  name : Nat
  content : List Byte
  offset : Nat
  deriving DecidableEq

namespace OsFile

/-- Writing `data` at the current offset (the destination side of `io.Copy`). -/
def write (f : OsFile) (data : List Byte) : OsFile :=
  { f with content := f.content.take f.offset ++ data ++ f.content.drop (f.offset + data.length)
           offset := f.offset + data.length }

/-- Go: `Seek(0, io.SeekStart)`. -/
def seekStart (f : OsFile) : OsFile := { f with offset := 0 }

/-- Reading from the current offset to the end of the file (the source side of
`io.Copy`). -/
def readAll (f : OsFile) : List Byte × OsFile :=
  (f.content.drop f.offset, { f with offset := f.offset + (f.content.drop f.offset).length })

/-- Go: `io.ReadFull(f, buf)` with `len(buf) = n`: exactly `n` bytes are read, or
the call fails with `EOF` when none is left and `ErrUnexpectedEOF` when fewer
than `n` are; an empty buffer always succeeds. -/
def ReadFull (f : OsFile) (n : Nat) : Except Error (List Byte × OsFile) :=
  if n = 0 then .ok ([], f)
  else if n ≤ (f.content.drop f.offset).length then
    .ok ((f.content.drop f.offset).take n, { f with offset := f.offset + n })
  else if (f.content.drop f.offset).length = 0 then .error Error.EOF
  else .error Error.ErrUnexpectedEOF

end OsFile

/-- Go: the conversion `int64(x)` of a `uint64`. -/
def int64 (x : Nat) : Int :=
  if x % 2 ^ 64 < 2 ^ 63 then ((x % 2 ^ 64 : Nat) : Int) else ((x % 2 ^ 64 : Nat) : Int) - 2 ^ 64

namespace runtime

/-- Go run time, 64-bit platforms: `maxAlloc`, the largest size in bytes an
allocation may have (`1 << 48`, the size of the heap address space). -/
def maxAlloc : Nat := 2 ^ 48

/-- Go: `make([]byte, len)` for a length known only at run time. A negative
length, or one above `maxAlloc`, panics ("makeslice: len out of range"); a
length in range is provided when it is 0 (nothing is allocated) or the machine
has the memory, and otherwise the process dies ("out of memory", a fatal error
that no deferred call survives). The call is logged with its outcome. -/
def makeslice (env : Collab) (len : Int) (w : World) : MakeResult × World :=
  let resp :=
    if len < 0 ∨ len > (maxAlloc : Int) then MakeResult.lenOutOfRange
    else if len = 0 ∨ env.Memory w.trace len.toNat = true then MakeResult.ok
    else MakeResult.outOfMemory
  (resp, w.log (Event.Make len resp))

end runtime

namespace ioutil

/-- A name that no file of the temporary directory bears, varied by `r`. -/
def freshName (temps : List Nat) (r : Nat) : Nat := temps.foldr max 0 + 1 + r

/-- Go: `ioutil.TempFile(conf.Conf.TempDir, "file-*")`: on success a new, empty
file with a name not in use is created and opened. -/
def TempFile (env : Collab) (w : World) : Except Error OsFile × World :=
  match env.TempFile w.trace with
  | .error err => (.error err, w)
  | .ok r =>
    let name := freshName w.temps r
    (.ok { name := name, content := [], offset := 0 },
     { w with temps := name :: w.temps, trace := w.trace ++ [Event.TempFile name] })

end ioutil

namespace os

/-- Go: `os.Remove(name)` in a file system where removing an existing file
succeeds. -/
def Remove (name : Nat) (w : World) : World :=
  { w with temps := w.temps.erase name, trace := w.trace ++ [Event.Remove name] }

end os

namespace uc

/-- The call `driver.UpPre(file, parentId, account)`, logged. -/
def UpPre (env : Collab) (file : model.FileStream) (parentId : String) (account : model.Account)
    (w : World) : Except Error UpPreResp × World :=
  let resp := env.UpPre w.trace file parentId account
  (resp, w.log (Event.UpPre file parentId account resp))

/-- The call `driver.UpHash(md5, sha1, taskId, account)`, logged. -/
def UpHash (env : Collab) (md5 sha1 taskId : String) (account : model.Account) (w : World) :
    Except Error Bool × World :=
  let resp := env.UpHash w.trace md5 sha1 taskId account
  (resp, w.log (Event.UpHash md5 sha1 taskId account resp))

/-- The call `driver.UpPart(pre, mineType, partNumber, bytes, account)`, logged. -/
def UpPart (env : Collab) (pre : UpPreResp) (mineType : String) (partNumber : Int)
    (bytes : List Byte) (account : model.Account) (w : World) : Except Error String × World :=
  let resp := env.UpPart w.trace pre mineType partNumber bytes account
  (resp, w.log (Event.UpPart pre mineType partNumber bytes account resp))

/-- The call `driver.UpCommit(pre, md5s, account)`, logged. -/
def UpCommit (env : Collab) (pre : UpPreResp) (md5s : List String) (account : model.Account)
    (w : World) : Except Error Unit × World :=
  let resp := env.UpCommit w.trace pre md5s account
  (resp, w.log (Event.UpCommit pre md5s account resp))

/-- The call `driver.UpFinish(pre, account)`, logged. -/
def UpFinish (env : Collab) (pre : UpPreResp) (account : model.Account) (w : World) :
    Except Error Unit × World :=
  let resp := env.UpFinish w.trace pre account
  (resp, w.log (Event.UpFinish pre account resp))

/-- Go: lines 241-268 of `Upload`: the stream is copied into the temporary file,
which is then read twice from the start, once per digest, with a seek to the
start after every pass. Returns `md5Str`, `sha1Str` and the file handle. -/
def stage (env : Collab) (h : List Event) (file : model.FileStream) (tempFile : OsFile) :
    Except Error (String × String × OsFile) :=
  -- io.Copy(tempFile, file)
  let tempFile := tempFile.write file.File
  match file.ReadErr with
  | some err => .error err
  | none =>
  match env.LocalErr h LocalStep.copyIn with
  | some err => .error err
  | none =>
  -- tempFile.Seek(0, io.SeekStart)
  match env.LocalErr h LocalStep.seekAfterCopy with
  | some err => .error err
  | none =>
  let tempFile := tempFile.seekStart
  -- io.Copy(m, tempFile)
  let m := tempFile.readAll.1
  let tempFile := tempFile.readAll.2
  match env.LocalErr h LocalStep.hashMD5 with
  | some err => .error err
  | none =>
  match env.LocalErr h LocalStep.seekAfterMD5 with
  | some err => .error err
  | none =>
  let tempFile := tempFile.seekStart
  let md5Str := hex.EncodeToString (env.MD5 m)
  -- io.Copy(s, tempFile)
  let s := tempFile.readAll.1
  let tempFile := tempFile.readAll.2
  match env.LocalErr h LocalStep.hashSHA1 with
  | some err => .error err
  | none =>
  match env.LocalErr h LocalStep.seekAfterSHA1 with
  | some err => .error err
  | none =>
  let tempFile := tempFile.seekStart
  let sha1Str := hex.EncodeToString (env.SHA1 s)
  .ok (md5Str, sha1Str, tempFile)

/-- Go: lines 313-317 of `Upload`: commit, then finish. -/
def commitAndFinish (env : Collab) (pre : UpPreResp) (md5s : List String)
    (account : model.Account) (w : World) : Except Error Unit × World :=
  match UpCommit env pre md5s account w with
  | (.error err, w1) => (.error err, w1)
  | (.ok _, w1) => UpFinish env pre account w1

/-- Go: `len(bytes)` after lines 291-295 of `Upload`: the part size when more than
a part is left, what is left otherwise. -/
def bufLen (pre : UpPreResp) (left : Int) : Nat :=
  (if left > pre.Metadata.PartSize then pre.Metadata.PartSize else left).toNat

/-- Go: the loop `for left > 0 { ... }` of `Upload` (lines 290-312) followed by
lines 313-317, started with the given values of `left`, `partNumber` and `md5s`
and the handle of the staged file. The first argument is the fuel: the
number of iterations allowed. The result is `none` when the fuel ran out
before the loop ended. -/
def partLoop (env : Collab) (pre : UpPreResp) (file : model.FileStream)
    (account : model.Account) : Nat → Int → Int → List String → OsFile → World →
    Option (Except Error Unit) × World
  | fuel, left, partNumber, md5s, tempFile, w =>
    if left > 0 then
      match fuel with
      | 0 => (none, w)
      | fuel + 1 =>
        match tempFile.ReadFull (bufLen pre left) with
        | .error err => (some (.error err), w)
        | .ok (bytes, tempFile) =>
          let left := left - pre.Metadata.PartSize
          match UpPart env pre file.GetMIMEType partNumber bytes account w with
          | (.error err, w1) => (some (.error err), w1)
          | (.ok m, w1) =>
            if m = "finish" then (some (.ok ()), w1)
            else partLoop env pre file account fuel left (partNumber + 1) (md5s ++ [m]) tempFile w1
    else
      ((commitAndFinish env pre md5s account w).1, (commitAndFinish env pre md5s account w).2)

/-- Go: lines 241-317 of `Upload`, everything after the `defer`. The buffer
`defaultBytes` is allocated before the loop (line 287): when that panics the
panic unwinds through `Upload`, when the process dies nothing returns (`none`).
The buffer of line 294 is no larger than `defaultBytes` and is taken to be
provided whenever that one was. The loop gets as many iterations as `left`
has units, which is enough whenever the part size is positive, and `extra`
more: with the part size 0 the loop makes no progress and runs for as long as
the remote answers with tokens. -/
def uploadSession (env : Collab) (extra : Nat) (file : model.FileStream)
    (parentFile : model.File) (account : model.Account) (tempFile : OsFile) (w : World) :
    Option (Except Error Unit) × World :=
  match stage env w.trace file tempFile with
  | .error err => (some (.error err), w)
  | .ok (md5Str, sha1Str, tempFile) =>
    match UpPre env file parentFile.Id account w with
    | (.error err, w1) => (some (.error err), w1)
    | (.ok pre, w1) =>
      match UpHash env md5Str sha1Str pre.Data.TaskId account w1 with
      | (.error err, w2) => (some (.error err), w2)
      | (.ok finish, w2) =>
        if finish then (some (.ok ()), w2)
        else
          let partSize := pre.Metadata.PartSize
          match runtime.makeslice env partSize w2 with
          | (MakeResult.lenOutOfRange, w3) => (some (.error Error.runtimePanic), w3)
          | (MakeResult.outOfMemory, w3) => (none, w3)
          | (MakeResult.ok, w3) =>
            let left := int64 file.GetSize
            partLoop env pre file account (left.toNat + extra) left 1 [] tempFile w3

/-- Go: `func (driver uc) Upload(file, account)`; `none` for `file` is the nil
pointer. The deferred close-and-remove runs on every way out of the part
after the temporary file was created. The result is `some r` when the call
returns `r`, and `none` when it has not returned: the process died, or the
part loop is still running after the iterations it was given (see
`uploadSession` for `extra`); the deferred call has then not run. -/
def Upload (env : Collab) (extra : Nat) (file : Option model.FileStream)
    (account : model.Account) (w : World) : Option (Except Error Unit) × World :=
  match file with
  | none => (some (.error Error.ErrEmptyFile), w)
  | some file =>
    match File env file.ParentPath account w with
    | none => (none, w)
    | some (.error err, w1) => (some (.error err), w1)
    | some (.ok parentFile, w1) =>
      match ioutil.TempFile env w1 with
      | (.error err, w2) => (some (.error err), w2)
      | (.ok tempFile, w2) =>
        match uploadSession env extra file parentFile account tempFile w2 with
        | (none, w3) => (none, w3)
        | (some r, w3) => (some r, os.Remove tempFile.name w3)

end uc

/-! ## Notions used to state the properties -/

namespace utils

/-- The characters of a normalised path: a leading slash, and either the path
is `/` or it does not end in a slash. -/
def Normal (q : List Char) : Prop :=
  q.head? = some '/' ∧ (q = ['/'] ∨ q.getLast? ≠ some '/')

end utils

/-- Whether the event is a remote listing call. -/
def Event.isGetFiles : Event → Bool
  | .GetFiles _ _ _ => true
  | _ => false

/-- The footprint of path resolution: the temporary directory is not touched,
the log grows by remote listing calls only, and no cache binding is lost or
changed. -/
structure Resolved (w w' : World) : Prop where
  temps : w'.temps = w.temps
  trace : ∃ evs, w'.trace = w.trace ++ evs ∧ ∀ e ∈ evs, e.isGetFiles = true
  cache : ∀ key v, Cache.get key w.cache = some v → Cache.get key w'.cache = some v

namespace uc

/-- The root entry `File` makes up for the path `/`. -/
def rootFile (account : model.Account) : model.File :=
  { Id := account.RootFolder, Name := account.Name, Size := 0, Type_ := conf.FOLDER,
    Driver := ConfigName, UpdatedAt := account.UpdatedAt }

/-- A sequence of `Files` calls, each on the state its predecessor left, with
nothing else touching the cache in between. The result is the final state. -/
def runFiles (env : Collab) : List (String × model.Account) → World → Option World
  | [], w => some w
  | (path, account) :: rest, w =>
    match Files env path account w with
    | none => none
    | some (_, w1) => runFiles env rest w1

end uc

/-- The arguments and the answer of one part-upload call. -/
structure PartCall where
  partNumber : Int
  bytes : List Byte
  resp : Except Error String
  deriving DecidableEq

/-- The part-upload call an event records, if it is one. -/
def Event.partCall? : Event → Option PartCall
  | .UpPart _ _ partNumber bytes _ resp => some ⟨partNumber, bytes, resp⟩
  | _ => none

/-- The token list and the answer of the commit call an event records, if it is
one. -/
def Event.commitCall? : Event → Option (List String × Except Error Unit)
  | .UpCommit _ md5s _ resp => some (md5s, resp)
  | _ => none

/-- The answer of the finish call an event records, if it is one. -/
def Event.finishCall? : Event → Option (Except Error Unit)
  | .UpFinish _ _ resp => some resp
  | _ => none

/-- The digests and the answer of the hash-check call an event records, if it
is one. -/
def Event.hashCall? : Event → Option (String × String × Except Error Bool)
  | .UpHash md5 sha1 _ _ resp => some (md5, sha1, resp)
  | _ => none

/-- The answer of the pre-negotiation call an event records, if it is one. -/
def Event.preCall? : Event → Option (Except Error uc.UpPreResp)
  | .UpPre _ _ _ resp => some resp
  | _ => none

/-- The length and the outcome of the buffer allocation an event records, if it
is one. -/
def Event.makeCall? : Event → Option (Int × MakeResult)
  | .Make len resp => some (len, resp)
  | _ => none

/-- The name of the temporary file an event records the creation of. -/
def Event.created? : Event → Option Nat
  | .TempFile name => some name
  | _ => none

/-- The name of the temporary file an event records the removal of. -/
def Event.removed? : Event → Option Nat
  | .Remove name => some name
  | _ => none

/-- Whether the event is one of the calls of the transfer proper: a part
upload, the commit or the finish. -/
def Event.isTransfer : Event → Bool
  | .UpPart _ _ _ _ _ _ => true
  | .UpCommit _ _ _ _ => true
  | .UpFinish _ _ _ => true
  | _ => false

/-- Whether the event is a part upload. -/
def Event.isPart : Event → Bool
  | .UpPart _ _ _ _ _ _ => true
  | _ => false

/-- Whether the answer of a part upload is a checksum token: neither a failure
nor the completion sentinel. -/
def isToken : Except Error String → Bool
  | .ok m => m != "finish"
  | .error _ => false

/-- The part-upload calls of a log, in call order. -/
def partCalls (evs : List Event) : List PartCall := evs.filterMap Event.partCall?

/-- The commit calls of a log, in call order. -/
def commitCalls (evs : List Event) : List (List String × Except Error Unit) :=
  evs.filterMap Event.commitCall?

/-- The finish calls of a log, in call order. -/
def finishCalls (evs : List Event) : List (Except Error Unit) := evs.filterMap Event.finishCall?

/-- The hash-check calls of a log, in call order. -/
def hashCalls (evs : List Event) : List (String × String × Except Error Bool) :=
  evs.filterMap Event.hashCall?

/-- The answers of the pre-negotiation calls of a log, in call order. -/
def preCalls (evs : List Event) : List (Except Error uc.UpPreResp) :=
  evs.filterMap Event.preCall?

/-- The buffer allocations of a log, in order. -/
def makeCalls (evs : List Event) : List (Int × MakeResult) := evs.filterMap Event.makeCall?

/-- The temporary files created in a log, in order. -/
def tempCreated (evs : List Event) : List Nat := evs.filterMap Event.created?

/-- The temporary files removed in a log, in order. -/
def tempRemoved (evs : List Event) : List Nat := evs.filterMap Event.removed?

/-- The part-upload, commit and finish calls of a log, in call order. -/
def transferCalls (evs : List Event) : List Event := evs.filter Event.isTransfer

/-- The part-upload events of a log, in call order. -/
def partEvents (evs : List Event) : List Event := evs.filter Event.isPart

namespace uc

/-- The runs of the part loop and of the commit and finish after it, as a
relation between the loop variables at the start (`left`, `partNumber`, `md5s`,
the file handle), the calls made, and the result (`none`: still looping). -/
inductive LoopRun (pre : UpPreResp) (file : model.FileStream) (account : model.Account) :
    Int → Int → List String → OsFile → List Event → Option (Except Error Unit) → Prop
  | commitErr (left partNumber : Int) (md5s : List String) (tempFile : OsFile) (err : Error) :
      left ≤ 0 →
      LoopRun pre file account left partNumber md5s tempFile
        [Event.UpCommit pre md5s account (.error err)] (some (.error err))
  | finished (left partNumber : Int) (md5s : List String) (tempFile : OsFile)
      (resp : Except Error Unit) :
      left ≤ 0 →
      LoopRun pre file account left partNumber md5s tempFile
        [Event.UpCommit pre md5s account (.ok ()), Event.UpFinish pre account resp] (some resp)
  | stuck (left partNumber : Int) (md5s : List String) (tempFile : OsFile) :
      0 < left → pre.Metadata.PartSize ≤ 0 →
      LoopRun pre file account left partNumber md5s tempFile [] none
  | readErr (left partNumber : Int) (md5s : List String) (tempFile : OsFile) (err : Error) :
      0 < left → tempFile.ReadFull (bufLen pre left) = .error err →
      LoopRun pre file account left partNumber md5s tempFile [] (some (.error err))
  | partErr (left partNumber : Int) (md5s : List String) (tempFile : OsFile)
      (bytes : List Byte) (tempFile1 : OsFile) (err : Error) :
      0 < left → tempFile.ReadFull (bufLen pre left) = .ok (bytes, tempFile1) →
      LoopRun pre file account left partNumber md5s tempFile
        [Event.UpPart pre file.GetMIMEType partNumber bytes account (.error err)]
        (some (.error err))
  | sentinel (left partNumber : Int) (md5s : List String) (tempFile : OsFile)
      (bytes : List Byte) (tempFile1 : OsFile) :
      0 < left → tempFile.ReadFull (bufLen pre left) = .ok (bytes, tempFile1) →
      LoopRun pre file account left partNumber md5s tempFile
        [Event.UpPart pre file.GetMIMEType partNumber bytes account (.ok "finish")]
        (some (.ok ()))
  | next (left partNumber : Int) (md5s : List String) (tempFile : OsFile)
      (bytes : List Byte) (tempFile1 : OsFile) (m : String) (evs : List Event)
      (r : Option (Except Error Unit)) :
      0 < left → tempFile.ReadFull (bufLen pre left) = .ok (bytes, tempFile1) →
      m ≠ "finish" →
      LoopRun pre file account (left - pre.Metadata.PartSize) (partNumber + 1) (md5s ++ [m])
        tempFile1 evs r →
      LoopRun pre file account left partNumber md5s tempFile
        (Event.UpPart pre file.GetMIMEType partNumber bytes account (.ok m) :: evs) r

/-- The runs of `uploadSession`, as a relation between the log at its start,
the file handle, the calls made and the result. -/
inductive SessionRun (env : Collab) (file : model.FileStream) (parentId : String)
    (account : model.Account) (h : List Event) (tempFile : OsFile) :
    List Event → Option (Except Error Unit) → Prop
  | stageErr (err : Error) :
      stage env h file tempFile = .error err →
      SessionRun env file parentId account h tempFile [] (some (.error err))
  | preErr (md5Str sha1Str : String) (tempFile1 : OsFile) (err : Error) :
      stage env h file tempFile = .ok (md5Str, sha1Str, tempFile1) →
      SessionRun env file parentId account h tempFile
        [Event.UpPre file parentId account (.error err)] (some (.error err))
  | hashErr (md5Str sha1Str : String) (tempFile1 : OsFile) (pre : UpPreResp) (err : Error) :
      stage env h file tempFile = .ok (md5Str, sha1Str, tempFile1) →
      SessionRun env file parentId account h tempFile
        [Event.UpPre file parentId account (.ok pre),
         Event.UpHash md5Str sha1Str pre.Data.TaskId account (.error err)] (some (.error err))
  | known (md5Str sha1Str : String) (tempFile1 : OsFile) (pre : UpPreResp) :
      stage env h file tempFile = .ok (md5Str, sha1Str, tempFile1) →
      SessionRun env file parentId account h tempFile
        [Event.UpPre file parentId account (.ok pre),
         Event.UpHash md5Str sha1Str pre.Data.TaskId account (.ok true)] (some (.ok ()))
  | badLen (md5Str sha1Str : String) (tempFile1 : OsFile) (pre : UpPreResp) :
      stage env h file tempFile = .ok (md5Str, sha1Str, tempFile1) →
      SessionRun env file parentId account h tempFile
        [Event.UpPre file parentId account (.ok pre),
         Event.UpHash md5Str sha1Str pre.Data.TaskId account (.ok false),
         Event.Make pre.Metadata.PartSize MakeResult.lenOutOfRange]
        (some (.error Error.runtimePanic))
  | noMemory (md5Str sha1Str : String) (tempFile1 : OsFile) (pre : UpPreResp) :
      stage env h file tempFile = .ok (md5Str, sha1Str, tempFile1) →
      SessionRun env file parentId account h tempFile
        [Event.UpPre file parentId account (.ok pre),
         Event.UpHash md5Str sha1Str pre.Data.TaskId account (.ok false),
         Event.Make pre.Metadata.PartSize MakeResult.outOfMemory] none
  | parts (md5Str sha1Str : String) (tempFile1 : OsFile) (pre : UpPreResp) (evs : List Event)
      (r : Option (Except Error Unit)) :
      stage env h file tempFile = .ok (md5Str, sha1Str, tempFile1) →
      0 ≤ pre.Metadata.PartSize →
      LoopRun pre file account (int64 file.GetSize) 1 [] tempFile1 evs r →
      SessionRun env file parentId account h tempFile
        (Event.UpPre file parentId account (.ok pre) ::
         Event.UpHash md5Str sha1Str pre.Data.TaskId account (.ok false) ::
         Event.Make pre.Metadata.PartSize MakeResult.ok :: evs) r

/-- The runs of `Upload` from the state `w`, as a relation between the
argument, the calls made and the result. -/
inductive UploadRun (env : Collab) (account : model.Account) (w : World) :
    Option model.FileStream → List Event → Option (Except Error Unit) → Prop
  | nilFile : UploadRun env account w none [] (some (.error Error.ErrEmptyFile))
  | noParent (file : model.FileStream) (evs : List Event) (err : Error) (w1 : World) :
      File env file.ParentPath account w = some (.error err, w1) →
      w1.trace = w.trace ++ evs → (∀ e ∈ evs, e.isGetFiles = true) →
      UploadRun env account w (some file) evs (some (.error err))
  | noTemp (file : model.FileStream) (evs : List Event) (parentFile : model.File)
      (w1 : World) (err : Error) :
      File env file.ParentPath account w = some (.ok parentFile, w1) →
      w1.trace = w.trace ++ evs → (∀ e ∈ evs, e.isGetFiles = true) →
      env.TempFile w1.trace = .error err →
      UploadRun env account w (some file) evs (some (.error err))
  | session (file : model.FileStream) (evs : List Event) (parentFile : model.File)
      (w1 : World) (rnd : Nat) (evsS : List Event) (r : Except Error Unit) :
      File env file.ParentPath account w = some (.ok parentFile, w1) →
      w1.trace = w.trace ++ evs → (∀ e ∈ evs, e.isGetFiles = true) →
      env.TempFile w1.trace = .ok rnd →
      SessionRun env file parentFile.Id account
        (w1.trace ++ [Event.TempFile (ioutil.freshName w.temps rnd)])
        { name := ioutil.freshName w.temps rnd, content := [], offset := 0 } evsS (some r) →
      UploadRun env account w (some file)
        (evs ++ Event.TempFile (ioutil.freshName w.temps rnd) :: evsS ++
          [Event.Remove (ioutil.freshName w.temps rnd)]) (some r)
  | running (file : model.FileStream) (evs : List Event) (parentFile : model.File)
      (w1 : World) (rnd : Nat) (evsS : List Event) :
      File env file.ParentPath account w = some (.ok parentFile, w1) →
      w1.trace = w.trace ++ evs → (∀ e ∈ evs, e.isGetFiles = true) →
      env.TempFile w1.trace = .ok rnd →
      SessionRun env file parentFile.Id account
        (w1.trace ++ [Event.TempFile (ioutil.freshName w.temps rnd)])
        { name := ioutil.freshName w.temps rnd, content := [], offset := 0 } evsS none →
      UploadRun env account w (some file)
        (evs ++ Event.TempFile (ioutil.freshName w.temps rnd) :: evsS) none

end uc

/-! ## A small concrete system, for evaluating the model -/

namespace demo

/-- An account whose root folder has id `0`. -/
def account : model.Account :=
  { Name := "acc", RootFolder := "0", AccessToken := "cookie", UpdatedAt := none }

/-- The folder `a`, with id `1`. -/
def folderA : model.File :=
  { Id := "1", Name := "a", Size := 0, Type_ := conf.FOLDER, Driver := "uc", UpdatedAt := none }

/-- A remote whose root holds the single, empty folder `a`. Uploads are offered
parts of two bytes, are not known by hash, and every part is accepted with the
token `t<part number>` up to part two (`x` beyond). -/
def env : Collab :=
  { GetFiles := fun _ id _ => if id = "0" then .ok [folderA] else .ok []
    UpPre := fun _ _ _ _ => .ok ⟨⟨"task"⟩, ⟨2⟩⟩
    UpHash := fun _ _ _ _ _ => .ok false
    UpPart := fun _ _ _ k _ _ => .ok (if k = 1 then "t1" else if k = 2 then "t2" else "x")
    UpCommit := fun _ _ _ _ => .ok ()
    UpFinish := fun _ _ _ => .ok ()
    TempFile := fun _ => .ok 0
    LocalErr := fun _ _ => none
    Memory := fun _ _ => true
    MD5 := fun bs => [bs.length]
    SHA1 := fun bs => [bs.length, bs.length] }

/-- A remote with an empty root folder. -/
def envEmpty : Collab := { env with GetFiles := fun _ _ _ => .ok [] }

/-- A remote whose listing call fails. -/
def envDown : Collab := { env with GetFiles := fun _ _ _ => .error (Error.remote 500) }

/-- The initial state: nothing cached, nothing logged, no temporary file. -/
def world : World := { cache := [], trace := [], temps := [] }

/-- The state after listing the root once on `env`. -/
def worldRootListed : World :=
  { cache := [(("/", account), [folderA])]
    trace := [Event.GetFiles "0" account (.ok [folderA])]
    temps := [] }

/-- The state after listing `/a` once more on top of `worldRootListed`. -/
def worldAListed : World :=
  { cache := [(("/", account), [folderA])]
    trace := [Event.GetFiles "0" account (.ok [folderA]), Event.GetFiles "1" account (.ok [])]
    temps := [] }

/-- A remote that knows every content by its hash. -/
def envKnown : Collab := { env with UpHash := fun _ _ _ _ _ => .ok true }

/-- A remote that answers the second part upload with the sentinel. -/
def envSentinel : Collab :=
  { env with UpPart := fun _ _ _ k _ _ => .ok (if k = 2 then "finish" else "t1") }

/-- A remote whose commit call fails. -/
def envCommitDown : Collab := { env with UpCommit := fun _ _ _ _ => .error (Error.remote 500) }

/-- A remote that answers the pre-negotiation with a negative part size. -/
def envNegative : Collab := { env with UpPre := fun _ _ _ _ => .ok ⟨⟨"task"⟩, ⟨-1⟩⟩ }

/-- A remote that answers the pre-negotiation with the part size `2^62`. -/
def envHuge : Collab := { env with UpPre := fun _ _ _ _ => .ok ⟨⟨"task"⟩, ⟨2 ^ 62⟩⟩ }

/-- A remote that answers the pre-negotiation with the part size 0, takes every
part with the token `t`, and answers the fourth part with the sentinel. -/
def envZero : Collab :=
  { env with UpPre := fun _ _ _ _ => .ok ⟨⟨"task"⟩, ⟨0⟩⟩
             UpPart := fun _ _ _ k _ _ => .ok (if k = 4 then "finish" else "t") }

/-- A remote with the part size 0 that takes every part with the token `t`. -/
def envZeroForever : Collab :=
  { env with UpPre := fun _ _ _ _ => .ok ⟨⟨"task"⟩, ⟨0⟩⟩
             UpPart := fun _ _ _ _ _ _ => .ok "t" }

/-- The machine of `env` without memory for any buffer. -/
def envNoMemory : Collab := { env with Memory := fun _ _ => false }

/-- A stream of three bytes, declared as three bytes, for the root folder. -/
def stream : model.FileStream :=
  { File := [10, 20, 30], ReadErr := none, Size := 3, ParentPath := "/", Name := "f",
    MIMEType := "text/plain" }

/-- A stream of five bytes, declared as five bytes, for the root folder. -/
def streamFive : model.FileStream := { stream with File := [10, 20, 30, 40, 50], Size := 5 }

/-- A stream that delivers three bytes although five were declared. -/
def streamShort : model.FileStream := { stream with Size := 5 }

/-- A stream for a folder that does not exist. -/
def streamNowhere : model.FileStream := { stream with ParentPath := "/nope" }

/-- The answer of `env` to the pre-negotiation. -/
def pre : uc.UpPreResp := ⟨⟨"task"⟩, ⟨2⟩⟩

/-- The calls of uploading `stream` on `env` from `world`. -/
def uploadCalls : List Event :=
  [Event.TempFile 1,
   Event.UpPre stream "0" account (.ok pre),
   Event.UpHash "03" "0303" "task" account (.ok false),
   Event.Make 2 MakeResult.ok,
   Event.UpPart pre "text/plain" 1 [10, 20] account (.ok "t1"),
   Event.UpPart pre "text/plain" 2 [30] account (.ok "t2"),
   Event.UpCommit pre ["t1", "t2"] account (.ok ()),
   Event.UpFinish pre account (.ok ()),
   Event.Remove 1]

/-- The calls of uploading `stream` on `envKnown` from `world`. -/
def uploadCallsKnown : List Event :=
  [Event.TempFile 1,
   Event.UpPre stream "0" account (.ok pre),
   Event.UpHash "03" "0303" "task" account (.ok true),
   Event.Remove 1]

/-- The calls of uploading `streamFive` on `envSentinel` from `world`. -/
def uploadCallsSentinel : List Event :=
  [Event.TempFile 1,
   Event.UpPre streamFive "0" account (.ok pre),
   Event.UpHash "05" "0505" "task" account (.ok false),
   Event.Make 2 MakeResult.ok,
   Event.UpPart pre "text/plain" 1 [10, 20] account (.ok "t1"),
   Event.UpPart pre "text/plain" 2 [30, 40] account (.ok "finish"),
   Event.Remove 1]

/-- The answer of `envZero` to the pre-negotiation. -/
def preZero : uc.UpPreResp := ⟨⟨"task"⟩, ⟨0⟩⟩

/-- The calls of uploading `stream` (three bytes declared) on `envZero` from
`world`: four empty parts, the fourth answered by the sentinel. -/
def uploadCallsZero : List Event :=
  [Event.TempFile 1,
   Event.UpPre stream "0" account (.ok preZero),
   Event.UpHash "03" "0303" "task" account (.ok false),
   Event.Make 0 MakeResult.ok,
   Event.UpPart preZero "text/plain" 1 [] account (.ok "t"),
   Event.UpPart preZero "text/plain" 2 [] account (.ok "t"),
   Event.UpPart preZero "text/plain" 3 [] account (.ok "t"),
   Event.UpPart preZero "text/plain" 4 [] account (.ok "finish"),
   Event.Remove 1]

end demo
/-! ## Paths -/

namespace utils

theorem trimRightSlash_last (cs : List Char) :
    (trimRightSlash cs).getLast? ≠ some '/' := by
  unfold trimRightSlash
  rw [List.getLast?_reverse]
  intro h
  cases hd : cs.reverse.dropWhile (fun c => c == '/') with
  | nil => rw [hd] at h; simp at h
  | cons x xs =>
    rw [hd] at h
    simp only [List.head?_cons, Option.some.injEq] at h
    have := List.head_dropWhile_not (fun c => c == '/') cs.reverse (by rw [hd]; simp)
    simp [hd, h] at this

theorem trimRightSlash_of_last (cs : List Char) (h : cs.getLast? ≠ some '/') :
    trimRightSlash cs = cs := by
  unfold trimRightSlash
  rw [← List.head?_reverse] at h
  cases hr : cs.reverse with
  | nil => simp at hr; simp [hr]
  | cons x xs =>
    rw [hr] at h
    have hx : (x == '/') = false := by simpa using h
    have : cs = (x :: xs).reverse := by rw [← hr, List.reverse_reverse]
    rw [List.dropWhile_cons, hx, this]
    simp

theorem ParsePath_normal (path : String) : Normal (ParsePath path).data := by
  unfold ParsePath Normal
  have ht := trimRightSlash_last path.data
  generalize trimRightSlash path.data = t at ht
  by_cases h : t.head? = some '/'
  · simp only [h, if_true, true_and]
    exact Or.inr ht
  · simp only [h, if_false, List.head?_cons, true_and]
    cases t with
    | nil => simp
    | cons x xs =>
      right
      rw [List.getLast?_cons_cons]
      exact ht

theorem ParsePath_of_normal (q : List Char) (h : Normal q) : ParsePath ⟨q⟩ = ⟨q⟩ := by
  obtain ⟨h1, h2⟩ := h
  rcases h2 with h2 | h2
  · subst h2; decide
  · unfold ParsePath
    simp [trimRightSlash_of_last q h2, h1]

theorem ParsePath_idem (path : String) : ParsePath (ParsePath path) = ParsePath path :=
  ParsePath_of_normal _ (ParsePath_normal path)

theorem ParsePath_length_pos (path : String) : 0 < (ParsePath path).length := by
  have h := (ParsePath_normal path).1
  cases hd : (ParsePath path).data with
  | nil => rw [hd] at h; simp at h
  | cons x xs => simp [String.length, hd]

end utils
theorem List.getLast?_dropWhile_of_ne_nil {α : Type} (p : α → Bool) (l : List α)
    (h : l.dropWhile p ≠ []) : (l.dropWhile p).getLast? = l.getLast? := by
  have hl : l = l.takeWhile p ++ l.dropWhile p := (List.takeWhile_append_dropWhile p l).symm
  conv_rhs => rw [hl]
  exact (List.getLast?_append_of_ne_nil _ h).symm

theorem List.length_dropWhile_le_self {α : Type} (p : α → Bool) (l : List α) :
    (l.dropWhile p).length ≤ l.length :=
  (List.dropWhile_suffix p).length_le

namespace filepath

theorem Split_append (path : String) :
    (Split path).1.data ++ (Split path).2.data = path.data := by
  unfold Split
  simp only
  rw [← List.reverse_append, List.takeWhile_append_dropWhile, List.reverse_reverse]

/-- The directory part of a normalised non-root path normalises to a strictly
shorter path: the recursion of `File` and `Files` terminates. -/
theorem ParsePath_dir_length (q : List Char) (hq : utils.Normal q) (hroot : q ≠ ['/']) :
    (utils.ParsePath (Split ⟨q⟩).1).length < q.length := by
  obtain ⟨h1, h2⟩ := hq
  have h2 : q.getLast? ≠ some '/' := by
    rcases h2 with h2 | h2
    · exact absurd h2 hroot
    · exact h2
  unfold Split utils.ParsePath utils.trimRightSlash
  simp only [List.reverse_reverse]
  rw [← List.head?_reverse] at h2
  have hqr : q = q.reverse.reverse := (List.reverse_reverse q).symm
  cases hr : q.reverse with
  | nil => simp at hr; simp [hr] at h1
  | cons c r =>
    rw [hr] at h2 hqr
    have hc : c ≠ '/' := by simpa using h2
    have hc2 : (c != '/') = true := by simpa using hc
    rw [List.dropWhile_cons, hc2]
    simp only [if_true]
    have hlen : q.length = r.length + 1 := by rw [hqr]; simp
    have hrne : r ≠ [] := by
      intro hr0
      rw [hr0] at hqr
      rw [hqr] at h1
      simp at h1
      exact hc h1
    have hrlast : r.getLast? = some '/' := by
      have : (c :: r).getLast? = some '/' := by
        rw [← hr, List.getLast?_reverse]; exact h1
      cases r with
      | nil => exact absurd rfl hrne
      | cons y ys => simpa using this
    set e := List.dropWhile (fun c => c == '/') (List.dropWhile (fun c => c != '/') r) with he
    have hle : e.length ≤ r.length :=
      le_trans (List.length_dropWhile_le_self _ _) (List.length_dropWhile_le_self _ _)
    by_cases hnil : e = []
    · rw [hnil]
      simp only [List.reverse_nil, List.head?_nil]
      have : 0 < r.length := List.length_pos.mpr hrne
      simp [String.length]
      omega
    · have hd : List.dropWhile (fun c => c != '/') r ≠ [] := by
        intro h0
        rw [h0] at he
        simp at he
        exact hnil he
      have hlast : e.getLast? = some '/' := by
        rw [he, List.getLast?_dropWhile_of_ne_nil _ _ (by rw [← he]; exact hnil),
          List.getLast?_dropWhile_of_ne_nil _ _ hd, hrlast]
      rw [List.head?_reverse, hlast]
      simp [String.length]
      omega

end filepath

namespace utils

theorem ParsePath_Split_length (path : String) (hroot : ParsePath path ≠ "/") :
    (ParsePath (filepath.Split (ParsePath path)).1).length < (ParsePath path).length := by
  have h := filepath.ParsePath_dir_length (ParsePath path).data (ParsePath_normal path)
    (by
      intro h0
      apply hroot
      have : ParsePath path = ⟨(ParsePath path).data⟩ := rfl
      rw [this, h0])
  exact h

end utils
/-! ## Fuel: enough of it always gives a result, and more of it changes nothing -/

namespace uc

theorem Fuel_succ (env : Collab) (fuel : Nat) :
    (∀ path account w r, FileFuel env fuel path account w = some r →
        FileFuel env (fuel + 1) path account w = some r) ∧
    (∀ path account w r, FilesFuel env fuel path account w = some r →
        FilesFuel env (fuel + 1) path account w = some r) := by
  induction fuel with
  | zero => constructor <;> intro _ _ _ _ h <;> simp [FileFuel, FilesFuel] at h
  | succ n ih =>
    obtain ⟨ihF, ihFs⟩ := ih
    constructor
    · intro path account w r h
      by_cases hroot : utils.ParsePath path = "/"
      · simp only [FileFuel, hroot, if_true] at h ⊢
        exact h
      · cases hF : FilesFuel env n (filepath.Split (utils.ParsePath path)).1 account w with
        | none => simp [FileFuel, hroot, hF] at h
        | some r1 =>
          have h1 := ihFs _ _ _ _ hF
          simp only [FileFuel, hroot, if_false, hF, h1] at h ⊢
          exact h
    · intro path account w r h
      cases hc : base.GetCache (utils.ParsePath path) account w with
      | some files =>
        simp only [FilesFuel, hc] at h ⊢
        exact h
      | none =>
        cases hF : FileFuel env n (utils.ParsePath path) account w with
        | none => simp [FilesFuel, hc, hF] at h
        | some r1 =>
          have h1 := ihF _ _ _ _ hF
          simp only [FilesFuel, hc, hF, h1] at h ⊢
          exact h

theorem FileFuel_mono (env : Collab) (fuel extra : Nat) (path : String)
    (account : model.Account) (w : World) (r : Except Error model.File × World)
    (h : FileFuel env fuel path account w = some r) :
    FileFuel env (fuel + extra) path account w = some r := by
  induction extra with
  | zero => exact h
  | succ k ih => exact (Fuel_succ env (fuel + k)).1 _ _ _ _ ih

theorem FilesFuel_mono (env : Collab) (fuel extra : Nat) (path : String)
    (account : model.Account) (w : World) (r : Except Error (List model.File) × World)
    (h : FilesFuel env fuel path account w = some r) :
    FilesFuel env (fuel + extra) path account w = some r := by
  induction extra with
  | zero => exact h
  | succ k ih => exact (Fuel_succ env (fuel + k)).2 _ _ _ _ ih

theorem Fuel_enough (env : Collab) (n : Nat) :
    (∀ path account w, (utils.ParsePath path).length ≤ n →
        ∃ r, FileFuel env (2 * n + 1) path account w = some r) ∧
    (∀ path account w, (utils.ParsePath path).length ≤ n →
        ∃ r, FilesFuel env (2 * n + 2) path account w = some r) := by
  induction n with
  | zero =>
    constructor <;> intro path _ _ h <;>
      exact absurd h (by have := utils.ParsePath_length_pos path; omega)
  | succ n ih =>
    have hFile : ∀ path account w, (utils.ParsePath path).length ≤ n + 1 →
        ∃ r, FileFuel env (2 * (n + 1) + 1) path account w = some r := by
      intro path account w hlen
      by_cases hroot : utils.ParsePath path = "/"
      · simp only [FileFuel, hroot, if_true]
        exact ⟨_, rfl⟩
      · have hlt := utils.ParsePath_Split_length path hroot
        obtain ⟨r1, hr1⟩ := ih.2 (filepath.Split (utils.ParsePath path)).1 account w (by omega)
        have e : 2 * (n + 1) + 1 = (2 * n + 2) + 1 := by ring
        rw [e]
        simp only [FileFuel, hroot, if_false, hr1]
        rcases r1 with ⟨_ | files, w1⟩
        · exact ⟨_, rfl⟩
        · simp only
          cases lookupName (filepath.Split (utils.ParsePath path)).2 files <;> exact ⟨_, rfl⟩
    refine ⟨hFile, ?_⟩
    intro path account w hlen
    have e : 2 * (n + 1) + 2 = (2 * (n + 1) + 1) + 1 := by ring
    rw [e]
    cases hc : base.GetCache (utils.ParsePath path) account w with
    | some files =>
      simp only [FilesFuel, hc]
      exact ⟨_, rfl⟩
    | none =>
      obtain ⟨r1, hr1⟩ := hFile (utils.ParsePath path) account w
        (by rw [utils.ParsePath_idem]; exact hlen)
      simp only [FilesFuel, hc, hr1]
      rcases r1 with ⟨_ | file, w1⟩
      · exact ⟨_, rfl⟩
      · simp only
        rcases hg : GetFiles env file.Id account w1 with ⟨_ | files, w2⟩
        · exact ⟨_, rfl⟩
        · simp only
          split <;> exact ⟨_, rfl⟩

/-- Resolution always returns: `File` never runs out of fuel. -/
theorem File_total (env : Collab) (path : String) (account : model.Account) (w : World) :
    ∃ r, File env path account w = some r := by
  obtain ⟨r, hr⟩ := (Fuel_enough env (utils.ParsePath path).length).1 path account w le_rfl
  exact ⟨r, FileFuel_mono env _ 1 path account w r hr⟩

/-- Listing always returns: `Files` never runs out of fuel. -/
theorem Files_total (env : Collab) (path : String) (account : model.Account) (w : World) :
    ∃ r, Files env path account w = some r :=
  (Fuel_enough env (utils.ParsePath path).length).2 path account w le_rfl

theorem FileFuel_eq_File (env : Collab) (fuel : Nat) (path : String)
    (account : model.Account) (w : World)
    (h : 2 * (utils.ParsePath path).length + 1 ≤ fuel) :
    FileFuel env fuel path account w = File env path account w := by
  obtain ⟨r, hr⟩ := (Fuel_enough env (utils.ParsePath path).length).1 path account w le_rfl
  have h1 := FileFuel_mono env _ (fuel - (2 * (utils.ParsePath path).length + 1)) _ _ _ _ hr
  have h2 := FileFuel_mono env _ 1 _ _ _ _ hr
  rw [show 2 * (utils.ParsePath path).length + 1 +
      (fuel - (2 * (utils.ParsePath path).length + 1)) = fuel by omega] at h1
  rw [h1]
  exact h2.symm

theorem FilesFuel_eq_Files (env : Collab) (fuel : Nat) (path : String)
    (account : model.Account) (w : World)
    (h : 2 * (utils.ParsePath path).length + 2 ≤ fuel) :
    FilesFuel env fuel path account w = Files env path account w := by
  obtain ⟨r, hr⟩ := (Fuel_enough env (utils.ParsePath path).length).2 path account w le_rfl
  have h1 := FilesFuel_mono env _ (fuel - (2 * (utils.ParsePath path).length + 2)) _ _ _ _ hr
  rw [show 2 * (utils.ParsePath path).length + 2 +
      (fuel - (2 * (utils.ParsePath path).length + 2)) = fuel by omega] at h1
  rw [h1]
  exact hr.symm

/-- The body of `File`, free of fuel. -/
theorem File_eq (env : Collab) (path : String) (account : model.Account) (w : World) :
    File env path account w =
      if utils.ParsePath path = "/" then some (.ok (rootFile account), w)
      else
        match Files env (filepath.Split (utils.ParsePath path)).1 account w with
        | none => none
        | some (.error err, w1) => some (.error err, w1)
        | some (.ok files, w1) =>
          match lookupName (filepath.Split (utils.ParsePath path)).2 files with
          | some file => some (.ok file, w1)
          | none => some (.error Error.ErrPathNotFound, w1) := by
  by_cases hroot : utils.ParsePath path = "/"
  · simp only [File, fuelFor, FileFuel, hroot, if_true, rootFile]
  · have hlt := utils.ParsePath_Split_length path hroot
    have e := FilesFuel_eq_Files env (2 * (utils.ParsePath path).length + 1)
      (filepath.Split (utils.ParsePath path)).1 account w (by omega)
    simp only [File, fuelFor, FileFuel, hroot, if_false, e]

/-- The body of `Files`, free of fuel. -/
theorem Files_eq (env : Collab) (path : String) (account : model.Account) (w : World) :
    Files env path account w =
      match base.GetCache (utils.ParsePath path) account w with
      | some files => some (.ok files, w)
      | none =>
        match File env (utils.ParsePath path) account w with
        | none => none
        | some (.error err, w1) => some (.error err, w1)
        | some (.ok file, w1) =>
          match GetFiles env file.Id account w1 with
          | (.error err, w2) => some (.error err, w2)
          | (.ok files, w2) =>
            if files.length > 0 then
              some (.ok files, base.SetCache (utils.ParsePath path) files account w2)
            else
              some (.ok files, w2) := by
  have e := FileFuel_eq_File env (2 * (utils.ParsePath path).length + 1)
    (utils.ParsePath path) account w (by rw [utils.ParsePath_idem])
  simp only [Files, fuelFor, FilesFuel, e]

end uc
/-! ## What path resolution does to the world -/

theorem Resolved.refl (w : World) : Resolved w w :=
  ⟨rfl, ⟨[], by simp, by simp⟩, fun _ _ h => h⟩

namespace uc

theorem Fuel_resolved (env : Collab) (fuel : Nat) :
    (∀ path account w r w', FileFuel env fuel path account w = some (r, w') → Resolved w w') ∧
    (∀ path account w r w', FilesFuel env fuel path account w = some (r, w') →
        Resolved w w') := by
  induction fuel with
  | zero => constructor <;> intro _ _ _ _ _ h <;> simp [FileFuel, FilesFuel] at h
  | succ n ih =>
    obtain ⟨ihF, ihFs⟩ := ih
    constructor
    · intro path account w r w' h
      by_cases hroot : utils.ParsePath path = "/"
      · simp only [FileFuel, hroot, if_true, Option.some.injEq, Prod.mk.injEq] at h
        rw [← h.2]
        exact Resolved.refl w
      · cases hF : FilesFuel env n (filepath.Split (utils.ParsePath path)).1 account w with
        | none => simp [FileFuel, hroot, hF] at h
        | some r1 =>
          obtain ⟨r1, w1⟩ := r1
          have h1 := ihFs _ _ _ _ _ hF
          simp only [FileFuel, hroot, if_false, hF] at h
          cases r1 with
          | error e =>
            simp only [Option.some.injEq, Prod.mk.injEq] at h
            rw [← h.2]; exact h1
          | ok files =>
            simp only at h
            cases hl : lookupName (filepath.Split (utils.ParsePath path)).2 files with
            | none =>
              simp only [hl, Option.some.injEq, Prod.mk.injEq] at h
              rw [← h.2]; exact h1
            | some f =>
              simp only [hl, Option.some.injEq, Prod.mk.injEq] at h
              rw [← h.2]; exact h1
    · intro path account w r w' h
      cases hc : base.GetCache (utils.ParsePath path) account w with
      | some files =>
        simp only [FilesFuel, hc, Option.some.injEq, Prod.mk.injEq] at h
        rw [← h.2]
        exact Resolved.refl w
      | none =>
        cases hF : FileFuel env n (utils.ParsePath path) account w with
        | none => simp [FilesFuel, hc, hF] at h
        | some r1 =>
          obtain ⟨r1, w1⟩ := r1
          have h1 := ihF _ _ _ _ _ hF
          simp only [FilesFuel, hc, hF] at h
          cases r1 with
          | error e =>
            simp only [Option.some.injEq, Prod.mk.injEq] at h
            rw [← h.2]; exact h1
          | ok file =>
            obtain ⟨evs, hevs, hall⟩ := h1.trace
            have hlog : Resolved w (w1.log (Event.GetFiles file.Id account
                (env.GetFiles w1.trace file.Id account))) := by
              refine ⟨h1.temps, ⟨evs ++ [Event.GetFiles file.Id account
                (env.GetFiles w1.trace file.Id account)], ?_, ?_⟩, h1.cache⟩
              · simp [World.log, hevs]
              · intro e he
                rcases List.mem_append.mp he with he | he
                · exact hall e he
                · simp at he; subst he; rfl
            simp only [GetFiles] at h
            cases hg : env.GetFiles w1.trace file.Id account with
            | error e =>
              simp only [hg, Option.some.injEq, Prod.mk.injEq] at h hlog
              rw [← h.2]; exact hlog
            | ok files =>
              simp only [hg] at h hlog
              by_cases hlen : files.length > 0
              · simp only [hlen, if_true, Option.some.injEq, Prod.mk.injEq] at h
                rw [← h.2]
                refine ⟨hlog.temps, hlog.trace, ?_⟩
                intro key v hk
                have hne : (utils.ParsePath path, account) ≠ key := by
                  intro heq
                  rw [← heq] at hk
                  simp only [base.GetCache] at hc
                  rw [hc] at hk
                  exact Option.noConfusion hk
                simp only [base.SetCache, Cache.get, hne, if_false]
                exact hlog.cache key v hk
              · simp only [hlen, if_false, Option.some.injEq, Prod.mk.injEq] at h
                rw [← h.2]; exact hlog

theorem File_resolved (env : Collab) (path : String) (account : model.Account) (w w' : World)
    (r : Except Error model.File) (h : File env path account w = some (r, w')) :
    Resolved w w' :=
  (Fuel_resolved env _).1 _ _ _ _ _ h

theorem Files_resolved (env : Collab) (path : String) (account : model.Account) (w w' : World)
    (r : Except Error (List model.File)) (h : Files env path account w = some (r, w')) :
    Resolved w w' :=
  (Fuel_resolved env _).2 _ _ _ _ _ h

/-- Resolution of a path writes cache bindings for strictly shorter paths, a
listing for paths that are not longer. -/
theorem Fuel_cache_far (env : Collab) (fuel : Nat) :
    (∀ path account w r w', FileFuel env fuel path account w = some (r, w') →
      ∀ key : String × model.Account, (utils.ParsePath path).length ≤ key.1.length →
        Cache.get key w'.cache = Cache.get key w.cache) ∧
    (∀ path account w r w', FilesFuel env fuel path account w = some (r, w') →
      ∀ key : String × model.Account, (utils.ParsePath path).length < key.1.length →
        Cache.get key w'.cache = Cache.get key w.cache) := by
  induction fuel with
  | zero => constructor <;> intro _ _ _ _ _ h <;> simp [FileFuel, FilesFuel] at h
  | succ n ih =>
    obtain ⟨ihF, ihFs⟩ := ih
    constructor
    · intro path account w r w' h key hkey
      by_cases hroot : utils.ParsePath path = "/"
      · simp only [FileFuel, hroot, if_true, Option.some.injEq, Prod.mk.injEq] at h
        rw [← h.2]
      · have hlt := utils.ParsePath_Split_length path hroot
        cases hF : FilesFuel env n (filepath.Split (utils.ParsePath path)).1 account w with
        | none => simp [FileFuel, hroot, hF] at h
        | some r1 =>
          obtain ⟨r1, w1⟩ := r1
          have h1 := ihFs _ _ _ _ _ hF key (by omega)
          simp only [FileFuel, hroot, if_false, hF] at h
          cases r1 with
          | error e =>
            simp only [Option.some.injEq, Prod.mk.injEq] at h
            rw [← h.2]; exact h1
          | ok files =>
            simp only at h
            cases hl : lookupName (filepath.Split (utils.ParsePath path)).2 files with
            | none =>
              simp only [hl, Option.some.injEq, Prod.mk.injEq] at h
              rw [← h.2]; exact h1
            | some f =>
              simp only [hl, Option.some.injEq, Prod.mk.injEq] at h
              rw [← h.2]; exact h1
    · intro path account w r w' h key hkey
      cases hc : base.GetCache (utils.ParsePath path) account w with
      | some files =>
        simp only [FilesFuel, hc, Option.some.injEq, Prod.mk.injEq] at h
        rw [← h.2]
      | none =>
        cases hF : FileFuel env n (utils.ParsePath path) account w with
        | none => simp [FilesFuel, hc, hF] at h
        | some r1 =>
          obtain ⟨r1, w1⟩ := r1
          have h1 := ihF _ _ _ _ _ hF key (by rw [utils.ParsePath_idem]; omega)
          simp only [FilesFuel, hc, hF] at h
          cases r1 with
          | error e =>
            simp only [Option.some.injEq, Prod.mk.injEq] at h
            rw [← h.2]; exact h1
          | ok file =>
            simp only [GetFiles] at h
            cases hg : env.GetFiles w1.trace file.Id account with
            | error e =>
              simp only [hg, Option.some.injEq, Prod.mk.injEq] at h
              rw [← h.2]; exact h1
            | ok files =>
              simp only [hg] at h
              by_cases hlen : files.length > 0
              · simp only [hlen, if_true, Option.some.injEq, Prod.mk.injEq] at h
                rw [← h.2]
                have hne : (utils.ParsePath path, account) ≠ key := by
                  intro heq
                  rw [← heq] at hkey
                  simp at hkey
                simp only [base.SetCache, World.log, Cache.get, hne, if_false]
                exact h1
              · simp only [hlen, if_false, Option.some.injEq, Prod.mk.injEq] at h
                rw [← h.2]; exact h1

end uc
/-! ## Listing and the cache -/

namespace uc

theorem runFiles_keeps (env : Collab) (calls : List (String × model.Account)) :
    ∀ w, ∃ w2, runFiles env calls w = some w2 ∧
      ∀ key v, Cache.get key w.cache = some v → Cache.get key w2.cache = some v := by
  induction calls with
  | nil => intro w; exact ⟨w, rfl, fun _ _ h => h⟩
  | cons c rest ih =>
    intro w
    obtain ⟨path, account⟩ := c
    obtain ⟨⟨r, w1⟩, hr⟩ := Files_total env path account w
    obtain ⟨w2, h2, hk⟩ := ih w1
    refine ⟨w2, ?_, ?_⟩
    · simp only [runFiles, hr]; exact h2
    · intro key v h
      exact hk key v ((Files_resolved env path account w w1 r hr).cache key v h)

theorem Files_hit (env : Collab) (path : String) (account : model.Account) (w : World)
    (files : List model.File)
    (h : base.GetCache (utils.ParsePath path) account w = some files) :
    Files env path account w = some (.ok files, w) := by
  rw [Files_eq, h]

theorem Files_cached (env : Collab) (path : String) (account : model.Account) (w w1 : World)
    (files : List model.File) (h : Files env path account w = some (.ok files, w1))
    (hne : files ≠ []) :
    base.GetCache (utils.ParsePath path) account w1 = some files := by
  rw [Files_eq] at h
  cases hc : base.GetCache (utils.ParsePath path) account w with
  | some fs =>
    simp only [hc, Option.some.injEq, Prod.mk.injEq, Except.ok.injEq] at h
    rw [← h.2, ← h.1]; exact hc
  | none =>
    simp only [hc] at h
    cases hF : File env (utils.ParsePath path) account w with
    | none => simp [hF] at h
    | some r1 =>
      obtain ⟨r1, w1⟩ := r1
      simp only [hF] at h
      cases r1 with
      | error e => simp at h
      | ok file =>
        simp only [GetFiles] at h
        cases hg : env.GetFiles w1.trace file.Id account with
        | error e => simp [hg] at h
        | ok fs =>
          simp only [hg] at h
          by_cases hlen : fs.length > 0
          · simp only [hlen, if_true, Option.some.injEq, Prod.mk.injEq, Except.ok.injEq] at h
            rw [← h.2, ← h.1]
            simp [base.GetCache, base.SetCache, Cache.get]
          · simp only [hlen, if_false, Option.some.injEq, Prod.mk.injEq, Except.ok.injEq] at h
            have : fs = [] := by
              cases fs with
              | nil => rfl
              | cons a b => simp at hlen
            exact absurd (h.1 ▸ this) hne

theorem lookupName_none (name : String) (files : List model.File) :
    lookupName name files = none ↔ ∀ g ∈ files, g.Name ≠ name := by
  induction files with
  | nil => simp [lookupName]
  | cons f rest ih =>
    by_cases hf : f.Name = name
    · simp [lookupName, hf]
    · simp [lookupName, hf, ih]

theorem lookupName_some (name : String) (files : List model.File) (file : model.File)
    (h : lookupName name files = some file) :
    ∃ before after, files = before ++ file :: after ∧ file.Name = name ∧
      ∀ g ∈ before, g.Name ≠ name := by
  induction files with
  | nil => simp [lookupName] at h
  | cons f rest ih =>
    by_cases hf : f.Name = name
    · simp only [lookupName, hf, if_true, Option.some.injEq] at h
      subst h
      exact ⟨[], rest, rfl, hf, by simp⟩
    · simp only [lookupName, hf, if_false] at h
      obtain ⟨before, after, h1, h2, h3⟩ := ih h
      refine ⟨f :: before, after, by simp [h1], h2, ?_⟩
      intro g hg
      rcases List.mem_cons.mp hg with hg | hg
      · rw [hg]; exact hf
      · exact h3 g hg

/-- Once a path has resolved to an entry, it resolves to the same entry, with
no effect at all, in every state that kept the cache bindings. -/
theorem File_stable (env : Collab) (path : String) (account : model.Account) (w w1 : World)
    (file : model.File) (h : File env path account w = some (.ok file, w1)) (w2 : World)
    (hkeep : ∀ key v, Cache.get key w1.cache = some v → Cache.get key w2.cache = some v) :
    File env path account w2 = some (.ok file, w2) := by
  rw [File_eq] at h ⊢
  by_cases hroot : utils.ParsePath path = "/"
  · simp only [hroot, if_true, Option.some.injEq, Prod.mk.injEq, Except.ok.injEq] at h ⊢
    exact ⟨h.1, trivial⟩
  · simp only [hroot, if_false] at h ⊢
    cases hF : Files env (filepath.Split (utils.ParsePath path)).1 account w with
    | none => simp [hF] at h
    | some r1 =>
      obtain ⟨r1, w1'⟩ := r1
      simp only [hF] at h
      cases r1 with
      | error e => simp at h
      | ok files =>
        simp only at h
        cases hl : lookupName (filepath.Split (utils.ParsePath path)).2 files with
        | none => simp [hl] at h
        | some f =>
          simp only [hl, Option.some.injEq, Prod.mk.injEq, Except.ok.injEq] at h
          have hne : files ≠ [] := by
            intro h0; rw [h0] at hl; simp [lookupName] at hl
          have hc := Files_cached env _ account w w1' files hF hne
          rw [h.2] at hc
          have hc2 := hkeep _ _ hc
          rw [Files_hit env _ account w2 files hc2]
          simp only [hl, h.1]

end uc
/-! ## The runs of `Upload` -/

/-- What a log made of remote listing calls only does not contain. -/
theorem getFiles_only (evs : List Event) (h : ∀ e ∈ evs, e.isGetFiles = true) :
    partCalls evs = [] ∧ commitCalls evs = [] ∧ finishCalls evs = [] ∧ hashCalls evs = [] ∧
    preCalls evs = [] ∧ tempCreated evs = [] ∧ tempRemoved evs = [] ∧
    transferCalls evs = [] ∧ partEvents evs = [] ∧ makeCalls evs = [] := by
  induction evs with
  | nil => simp [partCalls, commitCalls, finishCalls, hashCalls, preCalls, tempCreated,
      tempRemoved, transferCalls, partEvents, makeCalls]
  | cons e rest ih =>
    have he := h e (List.mem_cons_self _ _)
    obtain ⟨h1, h2, h3, h4, h5, h6, h7, h8, h9, h10⟩ :=
      ih (fun x hx => h x (List.mem_cons_of_mem _ hx))
    simp only [partCalls, commitCalls, finishCalls, hashCalls, preCalls, tempCreated,
      tempRemoved, transferCalls, partEvents, makeCalls] at h1 h2 h3 h4 h5 h6 h7 h8 h9 h10 ⊢
    cases e <;> simp [Event.isGetFiles] at he
    simp [Event.partCall?, Event.commitCall?, Event.finishCall?, Event.hashCall?,
      Event.preCall?, Event.created?, Event.removed?, Event.isTransfer, Event.isPart,
      Event.makeCall?, h1, h2, h3, h4, h5, h6, h7, h8, h9, h10]

namespace uc

theorem commitAndFinish_run (env : Collab) (pre : UpPreResp) (file : model.FileStream)
    (account : model.Account) (left partNumber : Int) (md5s : List String) (tempFile : OsFile)
    (w : World) (hleft : left ≤ 0) :
    ∃ evs, (commitAndFinish env pre md5s account w).2.trace = w.trace ++ evs ∧
      (commitAndFinish env pre md5s account w).2.cache = w.cache ∧
      (commitAndFinish env pre md5s account w).2.temps = w.temps ∧
      LoopRun pre file account left partNumber md5s tempFile evs
        (some (commitAndFinish env pre md5s account w).1) := by
  unfold commitAndFinish
  simp only [UpCommit, UpFinish, World.log]
  cases hc : env.UpCommit w.trace pre md5s account with
  | error err =>
    exact ⟨_, rfl, rfl, rfl, LoopRun.commitErr left partNumber md5s tempFile err hleft⟩
  | ok u =>
    refine ⟨[Event.UpCommit pre md5s account (.ok ()), Event.UpFinish pre account
      (env.UpFinish (w.trace ++ [Event.UpCommit pre md5s account (.ok ())]) pre account)],
      by simp, rfl, rfl, ?_⟩
    exact LoopRun.finished left partNumber md5s tempFile _ hleft

theorem partLoop_run (env : Collab) (pre : UpPreResp) (file : model.FileStream)
    (account : model.Account) (fuel : Nat) :
    ∀ (left partNumber : Int) (md5s : List String) (tempFile : OsFile) (w : World),
      (1 ≤ pre.Metadata.PartSize → left.toNat ≤ fuel) →
      ∃ evs,
        (partLoop env pre file account fuel left partNumber md5s tempFile w).2.trace =
          w.trace ++ evs ∧
        (partLoop env pre file account fuel left partNumber md5s tempFile w).2.cache = w.cache ∧
        (partLoop env pre file account fuel left partNumber md5s tempFile w).2.temps = w.temps ∧
        LoopRun pre file account left partNumber md5s tempFile evs
          (partLoop env pre file account fuel left partNumber md5s tempFile w).1 ∧
        ((partLoop env pre file account fuel left partNumber md5s tempFile w).1 = none →
          (partCalls evs).length = fuel) := by
  induction fuel with
  | zero =>
    intro left partNumber md5s tempFile w hfuel
    by_cases hleft : left > 0
    · rw [partLoop]
      simp only [hleft, if_true]
      refine ⟨[], by simp, trivial, trivial,
        LoopRun.stuck left partNumber md5s tempFile hleft ?_, fun _ => rfl⟩
      by_contra hp
      have := hfuel (by omega)
      omega
    · rw [partLoop]
      simp only [hleft, if_false]
      obtain ⟨evs, h1, h2, h3, h4⟩ :=
        commitAndFinish_run env pre file account left partNumber md5s tempFile w (by omega)
      exact ⟨evs, h1, h2, h3, h4, fun h => Option.noConfusion h⟩
  | succ n ih =>
    intro left partNumber md5s tempFile w hfuel
    by_cases hleft : left > 0
    · rw [partLoop]
      simp only [hleft, if_true]
      cases hread : tempFile.ReadFull (bufLen pre left) with
      | error err =>
        exact ⟨[], by simp, rfl, rfl,
          LoopRun.readErr left partNumber md5s tempFile err hleft hread,
          fun h => Option.noConfusion h⟩
      | ok v =>
        obtain ⟨bytes, tempFile1⟩ := v
        simp only [UpPart]
        cases hpart : env.UpPart w.trace pre file.GetMIMEType partNumber bytes account with
        | error err =>
          exact ⟨_, rfl, rfl, rfl,
            LoopRun.partErr left partNumber md5s tempFile bytes tempFile1 err hleft hread,
            fun h => Option.noConfusion h⟩
        | ok m =>
          simp only
          by_cases hm : m = "finish"
          · simp only [hm, if_true]
            exact ⟨_, rfl, rfl, rfl,
              LoopRun.sentinel left partNumber md5s tempFile bytes tempFile1 hleft hread,
              fun h => Option.noConfusion h⟩
          · simp only [hm, if_false]
            obtain ⟨evs, h1, h2, h3, h4, h5⟩ := ih (left - pre.Metadata.PartSize)
              (partNumber + 1) (md5s ++ [m]) tempFile1
              (w.log (Event.UpPart pre file.GetMIMEType partNumber bytes account (.ok m)))
              (by intro hp; have := hfuel hp; omega)
            refine ⟨Event.UpPart pre file.GetMIMEType partNumber bytes account (.ok m) :: evs,
              ?_, ?_, ?_, ?_, ?_⟩
            · rw [h1]; simp [World.log]
            · rw [h2]; rfl
            · rw [h3]; rfl
            · exact LoopRun.next left partNumber md5s tempFile bytes tempFile1 m evs _ hleft
                hread hm h4
            · intro hnone
              have := h5 hnone
              simp only [partCalls, List.filterMap_cons, Event.partCall?, List.length_cons]
              simp only [partCalls] at this
              omega
    · rw [partLoop]
      simp only [hleft, if_false]
      obtain ⟨evs, h1, h2, h3, h4⟩ :=
        commitAndFinish_run env pre file account left partNumber md5s tempFile w (by omega)
      exact ⟨evs, h1, h2, h3, h4, fun h => Option.noConfusion h⟩

theorem uploadSession_run (env : Collab) (extra : Nat) (file : model.FileStream)
    (parentFile : model.File) (account : model.Account) (tempFile : OsFile) (w : World) :
    ∃ evs,
      (uploadSession env extra file parentFile account tempFile w).2.trace = w.trace ++ evs ∧
      (uploadSession env extra file parentFile account tempFile w).2.cache = w.cache ∧
      (uploadSession env extra file parentFile account tempFile w).2.temps = w.temps ∧
      SessionRun env file parentFile.Id account w.trace tempFile evs
        (uploadSession env extra file parentFile account tempFile w).1 ∧
      ((uploadSession env extra file parentFile account tempFile w).1 = none →
        (∀ len, (len, MakeResult.outOfMemory) ∉ makeCalls evs) →
        (partCalls evs).length = (int64 file.GetSize).toNat + extra) := by
  unfold uploadSession
  cases hstage : stage env w.trace file tempFile with
  | error err =>
    exact ⟨[], by simp, rfl, rfl, SessionRun.stageErr err hstage, fun h => Option.noConfusion h⟩
  | ok v =>
    obtain ⟨md5Str, sha1Str, tempFile1⟩ := v
    simp only [UpPre, UpHash]
    cases hpre : env.UpPre w.trace file parentFile.Id account with
    | error err =>
      exact ⟨_, rfl, rfl, rfl, SessionRun.preErr md5Str sha1Str tempFile1 err hstage,
        fun h => Option.noConfusion h⟩
    | ok pre =>
      simp only
      cases hhash : env.UpHash (w.log (Event.UpPre file parentFile.Id account (.ok pre))).trace
          md5Str sha1Str pre.Data.TaskId account with
      | error err =>
        exact ⟨[Event.UpPre file parentFile.Id account (.ok pre),
            Event.UpHash md5Str sha1Str pre.Data.TaskId account (.error err)],
          by simp [World.log], rfl, rfl,
          SessionRun.hashErr md5Str sha1Str tempFile1 pre err hstage,
          fun h => Option.noConfusion h⟩
      | ok finish =>
        simp only
        cases finish with
        | true =>
          exact ⟨[Event.UpPre file parentFile.Id account (.ok pre),
              Event.UpHash md5Str sha1Str pre.Data.TaskId account (.ok true)],
            by simp [World.log], rfl, rfl, SessionRun.known md5Str sha1Str tempFile1 pre hstage,
            fun h => Option.noConfusion h⟩
        | false =>
          simp only [Bool.false_eq_true, if_false, runtime.makeslice]
          by_cases hrange : pre.Metadata.PartSize < 0 ∨
              pre.Metadata.PartSize > (runtime.maxAlloc : Int)
          · simp only [hrange, if_true]
            exact ⟨[Event.UpPre file parentFile.Id account (.ok pre),
                Event.UpHash md5Str sha1Str pre.Data.TaskId account (.ok false),
                Event.Make pre.Metadata.PartSize MakeResult.lenOutOfRange],
              by simp [World.log], rfl, rfl,
              SessionRun.badLen md5Str sha1Str tempFile1 pre hstage,
              fun h => Option.noConfusion h⟩
          · simp only [hrange, if_false]
            by_cases hmem : pre.Metadata.PartSize = 0 ∨
                env.Memory ((w.log (Event.UpPre file parentFile.Id account
                  (.ok pre))).log (Event.UpHash md5Str sha1Str pre.Data.TaskId account
                  (.ok false))).trace pre.Metadata.PartSize.toNat = true
            case neg =>
              simp only [hmem, if_false]
              exact ⟨[Event.UpPre file parentFile.Id account (.ok pre),
                  Event.UpHash md5Str sha1Str pre.Data.TaskId account (.ok false),
                  Event.Make pre.Metadata.PartSize MakeResult.outOfMemory],
                by simp [World.log], rfl, rfl,
                SessionRun.noMemory md5Str sha1Str tempFile1 pre hstage,
                fun _ hno => absurd (by simp [makeCalls, Event.makeCall?])
                  (hno pre.Metadata.PartSize)⟩
            case pos =>
              simp only [hmem, if_true]
              obtain ⟨evs, h1, h2, h3, h4, h5⟩ := partLoop_run env pre file account
                ((int64 file.GetSize).toNat + extra) (int64 file.GetSize) 1 [] tempFile1
                (((w.log (Event.UpPre file parentFile.Id account (.ok pre))).log
                  (Event.UpHash md5Str sha1Str pre.Data.TaskId account (.ok false))).log
                  (Event.Make pre.Metadata.PartSize MakeResult.ok))
                (fun _ => Nat.le_add_right _ _)
              refine ⟨Event.UpPre file parentFile.Id account (.ok pre) ::
                Event.UpHash md5Str sha1Str pre.Data.TaskId account (.ok false) ::
                Event.Make pre.Metadata.PartSize MakeResult.ok :: evs,
                ?_, ?_, ?_, ?_, ?_⟩
              · rw [h1]; simp [World.log]
              · rw [h2]; rfl
              · rw [h3]; rfl
              · exact SessionRun.parts md5Str sha1Str tempFile1 pre evs _ hstage (by omega) h4
              · intro hnone _
                have := h5 hnone
                simp only [partCalls] at this
                simp [partCalls, Event.partCall?, this]

/-- Every run of `Upload` is one of the runs `UploadRun` describes; the log
only grows, and a call that returns leaves the temporary directory as it found
it. -/
theorem Upload_run (env : Collab) (extra : Nat) (file : Option model.FileStream)
    (account : model.Account) (w : World) :
    ∃ evs, (Upload env extra file account w).2.trace = w.trace ++ evs ∧
      UploadRun env account w file evs (Upload env extra file account w).1 ∧
      ((Upload env extra file account w).1 ≠ none →
        (Upload env extra file account w).2.temps = w.temps) ∧
      (∀ f, file = some f → (Upload env extra file account w).1 = none →
        (∀ len, (len, MakeResult.outOfMemory) ∉ makeCalls evs) →
        (partCalls evs).length = (int64 f.GetSize).toNat + extra) := by
  cases file with
  | none =>
    exact ⟨[], by simp [Upload], UploadRun.nilFile, fun _ => rfl,
      fun _ hf => Option.noConfusion hf⟩
  | some file =>
    obtain ⟨⟨r, w1⟩, hF⟩ := File_total env file.ParentPath account w
    have hres := File_resolved env _ account w w1 r hF
    obtain ⟨evs, hevs, hall⟩ := hres.trace
    simp only [Upload, hF]
    cases r with
    | error err =>
      exact ⟨evs, hevs, UploadRun.noParent file evs err w1 hF hevs hall, fun _ => hres.temps,
        fun _ _ h => Option.noConfusion h⟩
    | ok parentFile =>
      simp only [ioutil.TempFile]
      cases htemp : env.TempFile w1.trace with
      | error err =>
        exact ⟨evs, hevs, UploadRun.noTemp file evs parentFile w1 err hF hevs hall htemp,
          fun _ => hres.temps, fun _ _ h => Option.noConfusion h⟩
      | ok rnd =>
        simp only
        obtain ⟨evsS, h1, _, h3, h4, h5⟩ := uploadSession_run env extra file parentFile account
          { name := ioutil.freshName w1.temps rnd, content := [], offset := 0 }
          { w1 with temps := ioutil.freshName w1.temps rnd :: w1.temps,
                    trace := w1.trace ++ [Event.TempFile (ioutil.freshName w1.temps rnd)] }
        rw [hres.temps] at h1 h3 h4 h5 ⊢
        simp only at h1 h3 h4 h5
        generalize uploadSession env extra file parentFile account
          { name := ioutil.freshName w.temps rnd, content := [], offset := 0 }
          { cache := w1.cache,
            trace := w1.trace ++ [Event.TempFile (ioutil.freshName w.temps rnd)],
            temps := ioutil.freshName w.temps rnd :: w.temps } = res at h1 h3 h4 h5 ⊢
        obtain ⟨r, w3⟩ := res
        simp only at h1 h3 h4 h5
        cases r with
        | none =>
          have hpF : partCalls evs = [] := (getFiles_only evs hall).1
          have hmF : makeCalls evs = [] := (getFiles_only evs hall).2.2.2.2.2.2.2.2.2
          refine ⟨evs ++ Event.TempFile (ioutil.freshName w.temps rnd) :: evsS, ?_, ?_, ?_, ?_⟩
          · simp only [h1, hevs]; simp
          · exact UploadRun.running file evs parentFile w1 rnd evsS hF hevs hall htemp h4
          · intro h; exact absurd rfl h
          · intro f hf _ hno
            cases hf
            have hcount := h5 rfl (by
              intro len hmem
              apply hno len
              simp only [makeCalls, List.filterMap_append, List.filterMap_cons,
                Event.makeCall?, List.mem_append]
              exact Or.inr hmem)
            simp only [partCalls] at hpF hcount
            simp [partCalls, List.filterMap_append, Event.partCall?, hpF, hcount]
        | some r =>
          refine ⟨evs ++ Event.TempFile (ioutil.freshName w.temps rnd) :: evsS ++
            [Event.Remove (ioutil.freshName w.temps rnd)], ?_, ?_, ?_, ?_⟩
          · simp only [os.Remove, h1, hevs]; simp
          · exact UploadRun.session file evs parentFile w1 rnd evsS r hF hevs hall htemp h4
          · intro _
            simp only [os.Remove, h3]
            simp
          · intro _ _ h
            exact Option.noConfusion h

end uc
/-! ## Reading the staged file -/

namespace OsFile

theorem ReadFull_ok (f f1 : OsFile) (n : Nat) (bytes : List Byte)
    (h : f.ReadFull n = .ok (bytes, f1)) :
    bytes = (f.content.drop f.offset).take n ∧ f1.content = f.content ∧
      f1.offset = f.offset + n := by
  unfold ReadFull at h
  by_cases h0 : n = 0
  · simp only [h0, if_true, Except.ok.injEq, Prod.mk.injEq] at h
    subst h0
    obtain ⟨h1, h2⟩ := h
    subst h2
    simp [← h1]
  · simp only [h0, if_false] at h
    by_cases h1 : n ≤ (f.content.drop f.offset).length
    · simp only [h1, if_true, Except.ok.injEq, Prod.mk.injEq] at h
      obtain ⟨h2, h3⟩ := h
      subst h3
      exact ⟨h2.symm, rfl, rfl⟩
    · simp only [h1, if_false] at h
      split at h <;> cases h

theorem ReadFull_error (f : OsFile) (n : Nat) (err : Error) (h : f.ReadFull n = .error err) :
    f.content.length - f.offset < n := by
  unfold ReadFull at h
  by_cases h0 : n = 0
  · simp [h0] at h
  · simp only [h0, if_false] at h
    by_cases h1 : n ≤ (f.content.drop f.offset).length
    · rw [if_pos h1] at h
      cases h
    · simpa using h1

end OsFile

namespace uc

/-- Staging: when the stream ends cleanly and no local step fails, the handle
ends up holding the whole payload with the offset back at 0, and the digests
are those of the whole payload. -/
theorem stage_ok (env : Collab) (h : List Event) (file : model.FileStream) (name : Nat)
    (md5Str sha1Str : String) (tempFile1 : OsFile)
    (hs : stage env h file { name := name, content := [], offset := 0 } =
      .ok (md5Str, sha1Str, tempFile1)) :
    md5Str = hex.EncodeToString (env.MD5 file.File) ∧
    sha1Str = hex.EncodeToString (env.SHA1 file.File) ∧
    tempFile1 = { name := name, content := file.File, offset := 0 } := by
  unfold stage at hs
  cases h1 : file.ReadErr <;> simp only [h1] at hs <;> try cases hs
  cases h2 : env.LocalErr h LocalStep.copyIn <;> simp only [h2] at hs <;> try cases hs
  cases h3 : env.LocalErr h LocalStep.seekAfterCopy <;> simp only [h3] at hs <;> try cases hs
  cases h4 : env.LocalErr h LocalStep.hashMD5 <;> simp only [h4] at hs <;> try cases hs
  cases h5 : env.LocalErr h LocalStep.seekAfterMD5 <;> simp only [h5] at hs <;> try cases hs
  cases h6 : env.LocalErr h LocalStep.hashSHA1 <;> simp only [h6] at hs <;> try cases hs
  cases h7 : env.LocalErr h LocalStep.seekAfterSHA1 <;> simp only [h7] at hs <;> try cases hs
  simp [OsFile.write, OsFile.seekStart, OsFile.readAll]

theorem stage_eq (env : Collab) (h : List Event) (file : model.FileStream) (name : Nat)
    (hread : file.ReadErr = none) (hlocal : ∀ s, env.LocalErr h s = none) :
    stage env h file { name := name, content := [], offset := 0 } =
      .ok (hex.EncodeToString (env.MD5 file.File), hex.EncodeToString (env.SHA1 file.File),
           { name := name, content := file.File, offset := 0 }) := by
  unfold stage
  simp [hread, hlocal, OsFile.write, OsFile.seekStart, OsFile.readAll]

end uc
/-! ## The part loop -/

theorem ceil_div_step (n P : Nat) (hP : 1 ≤ P) (hn : 1 ≤ n) :
    (n - P + P - 1) / P + 1 = (n + P - 1) / P := by
  by_cases h : P ≤ n
  · have : n - P + P - 1 + P = n + P - 1 := by omega
    rw [← this, Nat.add_div_right _ (by omega)]
  · have h1 : n - P + P - 1 = P - 1 := by omega
    rw [h1, Nat.div_eq_of_lt (by omega)]
    have : (n + P - 1) / P = 1 := by
      apply Nat.div_eq_of_lt_le <;> omega
    omega

theorem take_chunk {α : Type} (d : List α) (n P : Nat) :
    d.take (min P n) ++ (d.drop (min P n)).take (n - P) = d.take n := by
  by_cases h : P ≤ n
  · rw [Nat.min_eq_left h, ← List.take_add]
    congr 1
    omega
  · have h1 : min P n = n := Nat.min_eq_right (by omega)
    have h2 : n - P = 0 := by omega
    rw [h1, h2]
    simp

namespace uc

/-- A run of the loop in which the part size is positive, the staged file holds
what is left to send and every part upload is answered by a token: the calls
are exactly the chunks of the staged bytes, numbered upwards from
`partNumber`, then one commit with the tokens appended to `md5s`, then, when
the commit succeeded, the finish. -/
theorem LoopRun_clean (pre : UpPreResp) (file : model.FileStream) (account : model.Account)
    (hp : 1 ≤ pre.Metadata.PartSize)
    (left partNumber : Int) (md5s : List String) (tempFile : OsFile) (evs : List Event)
    (r : Option (Except Error Unit))
    (h : LoopRun pre file account left partNumber md5s tempFile evs r) :
    (∀ c ∈ partCalls evs, ∃ m, c.resp = .ok m ∧ m ≠ "finish") →
    left.toNat ≤ tempFile.content.length - tempFile.offset →
    ∃ tokens : List String,
      (partCalls evs).map (fun c => c.resp) = tokens.map Except.ok ∧
      (partCalls evs).map (fun c => c.partNumber) =
        (List.range tokens.length).map (fun j : Nat => partNumber + (j : Int)) ∧
      (partCalls evs).map (fun c => c.bytes.length) =
        (List.range tokens.length).map
          (fun j : Nat =>
            min pre.Metadata.PartSize.toNat (left.toNat - j * pre.Metadata.PartSize.toNat)) ∧
      tokens.length =
        (left.toNat + pre.Metadata.PartSize.toNat - 1) / pre.Metadata.PartSize.toNat ∧
      ((partCalls evs).map (fun c => c.bytes)).flatten =
        (tempFile.content.drop tempFile.offset).take left.toNat ∧
      ∃ cresp fin,
        transferCalls evs =
          partEvents evs ++ Event.UpCommit pre (md5s ++ tokens) account cresp :: fin ∧
        ((∃ err, cresp = .error err ∧ fin = [] ∧ r = some (.error err)) ∨
         (cresp = .ok () ∧ ∃ fresp, fin = [Event.UpFinish pre account fresp] ∧
            r = some fresp)) := by
  induction h with
  | commitErr left partNumber md5s tempFile err hleft =>
    intro _ _
    have h0 : left.toNat = 0 := by omega
    refine ⟨[], by simp [partCalls, Event.partCall?], by simp [partCalls, Event.partCall?],
      by simp [partCalls, Event.partCall?], ?_, ?_, ?_⟩
    · rw [h0]
      simp only [List.length_nil, Nat.zero_add]
      exact (Nat.div_eq_of_lt (by omega)).symm
    · simp [partCalls, Event.partCall?, h0]
    · exact ⟨.error err, [], by simp [transferCalls, partEvents, Event.isTransfer,
        Event.isPart], Or.inl ⟨err, rfl, rfl, rfl⟩⟩
  | finished left partNumber md5s tempFile resp hleft =>
    intro _ _
    have h0 : left.toNat = 0 := by omega
    refine ⟨[], by simp [partCalls, Event.partCall?], by simp [partCalls, Event.partCall?],
      by simp [partCalls, Event.partCall?], ?_, ?_, ?_⟩
    · rw [h0]
      simp only [List.length_nil, Nat.zero_add]
      exact (Nat.div_eq_of_lt (by omega)).symm
    · simp [partCalls, Event.partCall?, h0]
    · exact ⟨.ok (), [Event.UpFinish pre account resp],
        by simp [transferCalls, partEvents, Event.isTransfer, Event.isPart],
        Or.inr ⟨rfl, resp, rfl, rfl⟩⟩
  | stuck left partNumber md5s tempFile hleft hp0 =>
    intro _ _
    omega
  | readErr left partNumber md5s tempFile err hleft hread =>
    intro _ havail
    have := OsFile.ReadFull_error _ _ _ hread
    simp only [bufLen] at this
    split at this <;> omega
  | partErr left partNumber md5s tempFile bytes tempFile1 err hleft hread =>
    intro htok _
    obtain ⟨m, hm, _⟩ := htok ⟨partNumber, bytes, .error err⟩
      (by simp [partCalls, Event.partCall?])
    cases hm
  | sentinel left partNumber md5s tempFile bytes tempFile1 hleft hread =>
    intro htok _
    obtain ⟨m, hm, hne⟩ := htok ⟨partNumber, bytes, .ok "finish"⟩
      (by simp [partCalls, Event.partCall?])
    simp only [Except.ok.injEq] at hm
    exact absurd hm.symm hne
  | next left partNumber md5s tempFile bytes tempFile1 m evs r hleft hread hm _ ih =>
    intro htok havail
    obtain ⟨hb, hc, ho⟩ := OsFile.ReadFull_ok _ _ _ _ hread
    have hlen : bufLen pre left = min pre.Metadata.PartSize.toNat left.toNat := by
      simp only [bufLen]
      split <;> omega
    have hsub : (left - pre.Metadata.PartSize).toNat = left.toNat - pre.Metadata.PartSize.toNat := by
      omega
    have hcons : partCalls (Event.UpPart pre file.GetMIMEType partNumber bytes account (.ok m)
        :: evs) = ⟨partNumber, bytes, .ok m⟩ :: partCalls evs := by
      simp [partCalls, Event.partCall?]
    obtain ⟨tokens, t1, t2, t3, t4, t5, cresp, fin, t6, t7⟩ := ih
      (by
        intro c hc'
        exact htok c (by rw [hcons]; exact List.mem_cons_of_mem _ hc'))
      (by rw [hc, ho, hlen, hsub]; omega)
    refine ⟨m :: tokens, ?_, ?_, ?_, ?_, ?_, cresp, fin, ?_, t7⟩
    · rw [hcons]; simp [t1]
    · rw [hcons, List.map_cons, t2, List.length_cons, List.range_succ_eq_map]
      simp only [List.map_cons, List.map_map, Nat.cast_zero, add_zero, List.cons.injEq, true_and]
      apply List.map_congr_left
      intro j _
      simp only [Function.comp, Nat.succ_eq_add_one, Nat.cast_add, Nat.cast_one]
      ring
    · rw [hcons, List.map_cons, t3, List.length_cons, List.range_succ_eq_map]
      simp only [List.map_cons, List.map_map, Nat.zero_mul, Nat.sub_zero, List.cons.injEq]
      constructor
      · rw [hb, List.length_take, List.length_drop, hlen]
        omega
      · apply List.map_congr_left
        intro j _
        simp only [Function.comp, Nat.succ_eq_add_one, hsub]
        rw [Nat.sub_sub, Nat.add_mul, Nat.one_mul, Nat.add_comm]
    · rw [List.length_cons, t4, hsub]
      exact ceil_div_step _ _ (by omega) (by omega)
    · rw [hcons, List.map_cons, List.flatten_cons, t5, hb, hc, ho, hsub, hlen,
        ← List.drop_drop]
      exact take_chunk _ _ _
    · have happ : md5s ++ [m] ++ tokens = md5s ++ m :: tokens := by simp
      rw [happ] at t6
      simp only [transferCalls, partEvents, List.filter_cons, Event.isTransfer,
        Event.isPart, if_true, List.cons_append, List.cons.injEq,
        true_and, List.singleton_append] at t6 ⊢
      exact t6

/-- A run of the loop in which some part upload is answered by the sentinel:
that call is the last one made, the result is success, and neither commit nor
finish is called. -/
theorem LoopRun_sentinel (pre : UpPreResp) (file : model.FileStream) (account : model.Account)
    (left partNumber : Int) (md5s : List String) (tempFile : OsFile) (evs : List Event)
    (r : Option (Except Error Unit))
    (h : LoopRun pre file account left partNumber md5s tempFile evs r) :
    ∀ (j : Nat) (c : PartCall), (partCalls evs)[j]? = some c → c.resp = .ok "finish" →
      r = some (.ok ()) ∧ (partCalls evs).length = j + 1 ∧ commitCalls evs = [] ∧
        finishCalls evs = [] := by
  induction h with
  | commitErr left partNumber md5s tempFile err hleft =>
    intro j c hj _
    simp [partCalls, Event.partCall?] at hj
  | finished left partNumber md5s tempFile resp hleft =>
    intro j c hj _
    simp [partCalls, Event.partCall?] at hj
  | stuck left partNumber md5s tempFile hleft hp0 =>
    intro j c hj _
    simp [partCalls] at hj
  | readErr left partNumber md5s tempFile err hleft hread =>
    intro j c hj _
    simp [partCalls] at hj
  | partErr left partNumber md5s tempFile bytes tempFile1 err hleft hread =>
    intro j c hj hc
    cases j with
    | zero =>
      simp [partCalls, Event.partCall?] at hj
      rw [← hj] at hc
      cases hc
    | succ j => simp [partCalls, Event.partCall?] at hj
  | sentinel left partNumber md5s tempFile bytes tempFile1 hleft hread =>
    intro j c hj hc
    cases j with
    | zero =>
      simp [partCalls, commitCalls, finishCalls, Event.partCall?, Event.commitCall?,
        Event.finishCall?]
    | succ j => simp [partCalls, Event.partCall?] at hj
  | next left partNumber md5s tempFile bytes tempFile1 m evs r hleft hread hm _ ih =>
    intro j c hj hc
    have hcons : partCalls (Event.UpPart pre file.GetMIMEType partNumber bytes account (.ok m)
        :: evs) = ⟨partNumber, bytes, .ok m⟩ :: partCalls evs := by
      simp [partCalls, Event.partCall?]
    rw [hcons] at hj ⊢
    cases j with
    | zero =>
      simp only [List.getElem?_cons_zero, Option.some.injEq] at hj
      rw [← hj] at hc
      simp only [Except.ok.injEq] at hc
      exact absurd hc hm
    | succ j =>
      simp only [List.getElem?_cons_succ] at hj
      obtain ⟨h1, h2, h3, h4⟩ := ih j c hj hc
      refine ⟨h1, by simp [h2], ?_, ?_⟩
      · simpa [commitCalls, Event.commitCall?] using h3
      · simpa [finishCalls, Event.finishCall?] using h4

end uc
/-! ## From the calls of a run back to the run -/

namespace uc

/-- The calls of the part loop are part uploads, commits and finishes only. -/
theorem LoopRun_calls (pre : UpPreResp) (file : model.FileStream) (account : model.Account)
    (left partNumber : Int) (md5s : List String) (tempFile : OsFile) (evs : List Event)
    (r : Option (Except Error Unit))
    (h : LoopRun pre file account left partNumber md5s tempFile evs r) :
    hashCalls evs = [] ∧ preCalls evs = [] ∧ tempCreated evs = [] ∧ tempRemoved evs = [] ∧
      transferCalls evs = evs ∧ makeCalls evs = [] := by
  induction h with
  | next left partNumber md5s tempFile bytes tempFile1 m evs r hleft hread hm _ ih =>
    obtain ⟨h1, h2, h3, h4, h5, h6⟩ := ih
    simp only [hashCalls, preCalls, tempCreated, tempRemoved, transferCalls, makeCalls]
      at h1 h2 h3 h4 h5 h6 ⊢
    simp [Event.hashCall?, Event.preCall?, Event.created?, Event.removed?, Event.isTransfer,
      Event.makeCall?, h1, h2, h3, h4, h5, h6]
  | _ =>
    simp [hashCalls, preCalls, tempCreated, tempRemoved, transferCalls, makeCalls,
      Event.hashCall?, Event.preCall?, Event.created?, Event.removed?, Event.isTransfer,
      Event.makeCall?]

/-- The session creates and removes no temporary file of its own. -/
theorem SessionRun_temps (env : Collab) (file : model.FileStream) (parentId : String)
    (account : model.Account) (h : List Event) (tempFile : OsFile) (evs : List Event)
    (r : Option (Except Error Unit))
    (hs : SessionRun env file parentId account h tempFile evs r) :
    tempCreated evs = [] ∧ tempRemoved evs = [] := by
  cases hs with
  | parts md5Str sha1Str tempFile1 pre evs r hstage hp hloop =>
    obtain ⟨_, _, h3, h4, _, _⟩ := LoopRun_calls _ _ _ _ _ _ _ _ _ hloop
    simp only [tempCreated, tempRemoved] at h3 h4 ⊢
    simp [Event.created?, Event.removed?, h3, h4]
  | _ => simp [tempCreated, tempRemoved, Event.created?, Event.removed?]

/-- Every hash check of a session carries the digests of the whole payload. -/
theorem SessionRun_digests (env : Collab) (file : model.FileStream) (parentId : String)
    (account : model.Account) (h : List Event) (name : Nat) (evs : List Event)
    (r : Option (Except Error Unit))
    (hs : SessionRun env file parentId account h
      { name := name, content := [], offset := 0 } evs r)
    (md5 sha1 : String) (resp : Except Error Bool)
    (hmem : (md5, sha1, resp) ∈ hashCalls evs) :
    md5 = hex.EncodeToString (env.MD5 file.File) ∧
      sha1 = hex.EncodeToString (env.SHA1 file.File) := by
  cases hs with
  | stageErr err hstage => simp [hashCalls] at hmem
  | preErr md5Str sha1Str tempFile1 err hstage =>
    simp [hashCalls, Event.hashCall?] at hmem
  | hashErr md5Str sha1Str tempFile1 pre err hstage =>
    obtain ⟨h1, h2, _⟩ := stage_ok _ _ _ _ _ _ _ hstage
    simp [hashCalls, Event.hashCall?] at hmem
    rw [hmem.1, hmem.2.1]; exact ⟨h1, h2⟩
  | known md5Str sha1Str tempFile1 pre hstage =>
    obtain ⟨h1, h2, _⟩ := stage_ok _ _ _ _ _ _ _ hstage
    simp [hashCalls, Event.hashCall?] at hmem
    rw [hmem.1, hmem.2.1]; exact ⟨h1, h2⟩
  | badLen md5Str sha1Str tempFile1 pre hstage =>
    obtain ⟨h1, h2, _⟩ := stage_ok _ _ _ _ _ _ _ hstage
    simp [hashCalls, Event.hashCall?] at hmem
    rw [hmem.1, hmem.2.1]; exact ⟨h1, h2⟩
  | noMemory md5Str sha1Str tempFile1 pre hstage =>
    obtain ⟨h1, h2, _⟩ := stage_ok _ _ _ _ _ _ _ hstage
    simp [hashCalls, Event.hashCall?] at hmem
    rw [hmem.1, hmem.2.1]; exact ⟨h1, h2⟩
  | parts md5Str sha1Str tempFile1 pre evs r hstage hp hloop =>
    obtain ⟨h1, h2, _⟩ := stage_ok _ _ _ _ _ _ _ hstage
    obtain ⟨h3, _⟩ := LoopRun_calls _ _ _ _ _ _ _ _ _ hloop
    simp only [hashCalls] at h3
    simp [hashCalls, Event.hashCall?, h3] at hmem
    rw [hmem.1, hmem.2.1]; exact ⟨h1, h2⟩

/-- A session whose hash check answered "already complete" ends in success
without a part upload, a commit or a finish. -/
theorem SessionRun_known (env : Collab) (file : model.FileStream) (parentId : String)
    (account : model.Account) (h : List Event) (tempFile : OsFile) (evs : List Event)
    (r : Option (Except Error Unit))
    (hs : SessionRun env file parentId account h tempFile evs r)
    (md5 sha1 : String) (hmem : (md5, sha1, Except.ok true) ∈ hashCalls evs) :
    r = some (.ok ()) ∧ partCalls evs = [] ∧ commitCalls evs = [] ∧ finishCalls evs = [] := by
  cases hs with
  | stageErr err hstage => simp [hashCalls] at hmem
  | preErr md5Str sha1Str tempFile1 err hstage =>
    simp [hashCalls, Event.hashCall?] at hmem
  | hashErr md5Str sha1Str tempFile1 pre err hstage =>
    simp [hashCalls, Event.hashCall?] at hmem
  | known md5Str sha1Str tempFile1 pre hstage =>
    simp [partCalls, commitCalls, finishCalls, Event.partCall?, Event.commitCall?,
      Event.finishCall?]
  | badLen md5Str sha1Str tempFile1 pre hstage =>
    simp [hashCalls, Event.hashCall?] at hmem
  | noMemory md5Str sha1Str tempFile1 pre hstage =>
    simp [hashCalls, Event.hashCall?] at hmem
  | parts md5Str sha1Str tempFile1 pre evs r hstage hp hloop =>
    obtain ⟨h3, _⟩ := LoopRun_calls _ _ _ _ _ _ _ _ _ hloop
    simp only [hashCalls] at h3
    simp [hashCalls, Event.hashCall?, h3] at hmem

/-- A session whose hash check answered "not known" and whose part buffer was
allocated goes through the part loop, started at part 1 with the whole payload
staged and the offset at 0. -/
theorem SessionRun_loop (env : Collab) (file : model.FileStream) (parentId : String)
    (account : model.Account) (h : List Event) (name : Nat) (evs : List Event)
    (r : Option (Except Error Unit))
    (hs : SessionRun env file parentId account h
      { name := name, content := [], offset := 0 } evs r)
    (md5 sha1 : String) (hmem : (md5, sha1, Except.ok false) ∈ hashCalls evs)
    (pre : UpPreResp) (hpre : Except.ok pre ∈ preCalls evs)
    (hbuf : (pre.Metadata.PartSize, MakeResult.ok) ∈ makeCalls evs) :
    ∃ evsL, LoopRun pre file account (int64 file.GetSize) 1 []
        { name := name, content := file.File, offset := 0 } evsL r ∧
      partCalls evs = partCalls evsL ∧ transferCalls evs = evsL ∧
      partEvents evs = partEvents evsL := by
  cases hs with
  | stageErr err hstage => simp [hashCalls] at hmem
  | preErr md5Str sha1Str tempFile1 err hstage =>
    simp [hashCalls, Event.hashCall?] at hmem
  | hashErr md5Str sha1Str tempFile1 pre1 err hstage =>
    simp [hashCalls, Event.hashCall?] at hmem
  | known md5Str sha1Str tempFile1 pre1 hstage =>
    simp [hashCalls, Event.hashCall?] at hmem
  | badLen md5Str sha1Str tempFile1 pre1 hstage =>
    simp [makeCalls, Event.makeCall?] at hbuf
  | noMemory md5Str sha1Str tempFile1 pre1 hstage =>
    simp [makeCalls, Event.makeCall?] at hbuf
  | parts md5Str sha1Str tempFile1 pre1 evs r hstage hp1 hloop =>
    obtain ⟨_, _, h3⟩ := stage_ok _ _ _ _ _ _ _ hstage
    obtain ⟨_, h5, _, _, h6, _⟩ := LoopRun_calls _ _ _ _ _ _ _ _ _ hloop
    simp only [preCalls] at h5
    simp [preCalls, Event.preCall?, h5] at hpre
    subst hpre
    subst h3
    refine ⟨evs, hloop, ?_, ?_, ?_⟩
    · simp [partCalls, Event.partCall?]
    · simp only [transferCalls] at h6 ⊢
      simp [Event.isTransfer, h6]
    · simp [partEvents, Event.isPart]

/-- The part uploads of a session are those of its part loop. -/
theorem SessionRun_sentinel (env : Collab) (file : model.FileStream) (parentId : String)
    (account : model.Account) (h : List Event) (tempFile : OsFile) (evs : List Event)
    (r : Option (Except Error Unit))
    (hs : SessionRun env file parentId account h tempFile evs r)
    (j : Nat) (c : PartCall) (hj : (partCalls evs)[j]? = some c)
    (hc : c.resp = .ok "finish") :
    r = some (.ok ()) ∧ (partCalls evs).length = j + 1 ∧ commitCalls evs = [] ∧
      finishCalls evs = [] := by
  cases hs with
  | parts md5Str sha1Str tempFile1 pre evs r hstage hp hloop =>
    have e1 : partCalls (Event.UpPre file parentId account (.ok pre) ::
        Event.UpHash md5Str sha1Str pre.Data.TaskId account (.ok false) ::
        Event.Make pre.Metadata.PartSize MakeResult.ok :: evs) =
        partCalls evs := by simp [partCalls, Event.partCall?]
    rw [e1] at hj ⊢
    obtain ⟨h1, h2, h3, h4⟩ := LoopRun_sentinel _ _ _ _ _ _ _ _ _ hloop j c hj hc
    refine ⟨h1, h2, ?_, ?_⟩
    · simpa [commitCalls, Event.commitCall?] using h3
    · simpa [finishCalls, Event.finishCall?] using h4
  | _ => simp [partCalls, Event.partCall?] at hj

/-- The calls of an `Upload` run that concern the transfer are those of its
session, when it has one; otherwise there are none. -/
theorem UploadRun_session (env : Collab) (account : model.Account) (w : World)
    (file : Option model.FileStream) (evs : List Event) (r : Option (Except Error Unit))
    (h : UploadRun env account w file evs r) :
    (partCalls evs = [] ∧ commitCalls evs = [] ∧ finishCalls evs = [] ∧ hashCalls evs = [] ∧
      preCalls evs = [] ∧ transferCalls evs = [] ∧ makeCalls evs = [] ∧ r ≠ none) ∨
    (∃ f parentId hist name evsS, file = some f ∧
      SessionRun env f parentId account hist { name := name, content := [], offset := 0 }
        evsS r ∧
      partCalls evs = partCalls evsS ∧ commitCalls evs = commitCalls evsS ∧
      finishCalls evs = finishCalls evsS ∧ hashCalls evs = hashCalls evsS ∧
      preCalls evs = preCalls evsS ∧ transferCalls evs = transferCalls evsS ∧
      partEvents evs = partEvents evsS ∧ makeCalls evs = makeCalls evsS) := by
  cases h with
  | nilFile =>
    left
    simp [partCalls, commitCalls, finishCalls, hashCalls, preCalls, transferCalls, makeCalls]
  | noParent file evs err w1 hF hevs hall =>
    left
    obtain ⟨h1, h2, h3, h4, h5, _, _, h8, _, h10⟩ := getFiles_only evs hall
    exact ⟨h1, h2, h3, h4, h5, h8, h10, by simp⟩
  | noTemp file evs parentFile w1 err hF hevs hall htemp =>
    left
    obtain ⟨h1, h2, h3, h4, h5, _, _, h8, _, h10⟩ := getFiles_only evs hall
    exact ⟨h1, h2, h3, h4, h5, h8, h10, by simp⟩
  | session file evs parentFile w1 rnd evsS r hF hevs hall htemp hs =>
    right
    obtain ⟨h1, h2, h3, h4, h5, _, _, h8, h9, h10⟩ := getFiles_only evs hall
    simp only [partCalls, commitCalls, finishCalls, hashCalls, preCalls, transferCalls,
      partEvents, makeCalls] at h1 h2 h3 h4 h5 h8 h9 h10
    refine ⟨file, parentFile.Id, _, _, evsS, rfl, hs, ?_, ?_, ?_, ?_, ?_, ?_, ?_, ?_⟩ <;>
      simp [partCalls, commitCalls, finishCalls, hashCalls, preCalls, transferCalls,
        partEvents, makeCalls, List.filterMap_append, List.filter_append, Event.partCall?,
        Event.commitCall?, Event.finishCall?, Event.hashCall?, Event.preCall?,
        Event.makeCall?, Event.isTransfer, Event.isPart, h1, h2, h3, h4, h5, h8, h9, h10]
  | running file evs parentFile w1 rnd evsS hF hevs hall htemp hs =>
    right
    obtain ⟨h1, h2, h3, h4, h5, _, _, h8, h9, h10⟩ := getFiles_only evs hall
    simp only [partCalls, commitCalls, finishCalls, hashCalls, preCalls, transferCalls,
      partEvents, makeCalls] at h1 h2 h3 h4 h5 h8 h9 h10
    refine ⟨file, parentFile.Id, _, _, evsS, rfl, hs, ?_, ?_, ?_, ?_, ?_, ?_, ?_, ?_⟩ <;>
      simp [partCalls, commitCalls, finishCalls, hashCalls, preCalls, transferCalls,
        partEvents, makeCalls, List.filterMap_append, List.filter_append, Event.partCall?,
        Event.commitCall?, Event.finishCall?, Event.hashCall?, Event.preCall?,
        Event.makeCall?, Event.isTransfer, Event.isPart, h1, h2, h3, h4, h5, h8, h9, h10]

/-- The events a run of `Upload` adds to the log are determined by the run. -/
theorem Upload_events (env : Collab) (extra : Nat) (file : Option model.FileStream)
    (account : model.Account) (w : World) (evs : List Event)
    (hevs : (Upload env extra file account w).2.trace = w.trace ++ evs) :
    UploadRun env account w file evs (Upload env extra file account w).1 ∧
      ((Upload env extra file account w).1 ≠ none →
        (Upload env extra file account w).2.temps = w.temps) := by
  obtain ⟨evs', h1, h2, h3, _⟩ := Upload_run env extra file account w
  rw [hevs] at h1
  have := List.append_cancel_left h1
  subst this
  exact ⟨h2, h3⟩

/-- A run of `Upload` that has not returned and did not die for want of memory
has made as many part uploads as its loop was given iterations. -/
theorem Upload_count (env : Collab) (extra : Nat) (file : model.FileStream)
    (account : model.Account) (w : World) (evs : List Event)
    (hevs : (Upload env extra (some file) account w).2.trace = w.trace ++ evs)
    (hnone : (Upload env extra (some file) account w).1 = none)
    (hmem : ∀ len, (len, MakeResult.outOfMemory) ∉ makeCalls evs) :
    (partCalls evs).length = (int64 file.GetSize).toNat + extra := by
  obtain ⟨evs', h1, _, _, h4⟩ := Upload_run env extra (some file) account w
  rw [hevs] at h1
  have := List.append_cancel_left h1
  subst this
  exact h4 file rfl hnone hmem

end uc

/-! ## The fuel of the part loop -/

namespace uc

/-- A run of the loop that has not ended: the part size is 0 or less, and all
the part uploads made so far were answered by tokens, with no commit yet. -/
theorem LoopRun_none (pre : UpPreResp) (file : model.FileStream) (account : model.Account)
    (left partNumber : Int) (md5s : List String) (tempFile : OsFile) (evs : List Event)
    (r : Option (Except Error Unit))
    (h : LoopRun pre file account left partNumber md5s tempFile evs r) :
    r = none → pre.Metadata.PartSize ≤ 0 ∧ (∀ c ∈ partCalls evs, isToken c.resp = true) ∧
      commitCalls evs = [] := by
  induction h with
  | stuck left partNumber md5s tempFile hleft hp0 =>
    intro _
    exact ⟨hp0, by simp [partCalls], by simp [commitCalls]⟩
  | next left partNumber md5s tempFile bytes tempFile1 m evs r hleft hread hm _ ih =>
    intro hr
    obtain ⟨h1, h2, h3⟩ := ih hr
    refine ⟨h1, ?_, ?_⟩
    · intro c hc
      simp only [partCalls, List.filterMap_cons, Event.partCall?, List.mem_cons] at hc
      rcases hc with hc | hc
      · rw [hc]
        simpa [isToken] using hm
      · exact h2 c hc
    · simpa [commitCalls, Event.commitCall?] using h3
  | _ => intro h; cases h

/-- More fuel does not change a run of the loop that has ended. -/
theorem partLoop_fuel_succ (env : Collab) (pre : UpPreResp) (file : model.FileStream)
    (account : model.Account) (fuel : Nat) :
    ∀ (left partNumber : Int) (md5s : List String) (tempFile : OsFile) (w : World),
      (partLoop env pre file account fuel left partNumber md5s tempFile w).1 ≠ none →
      partLoop env pre file account (fuel + 1) left partNumber md5s tempFile w =
        partLoop env pre file account fuel left partNumber md5s tempFile w := by
  induction fuel with
  | zero =>
    intro left partNumber md5s tempFile w h
    by_cases hleft : left > 0
    · rw [partLoop] at h
      simp [hleft] at h
    · rw [partLoop, partLoop]
      simp only [hleft, if_false]
  | succ n ih =>
    intro left partNumber md5s tempFile w h
    by_cases hleft : left > 0
    · rw [partLoop] at h ⊢
      conv_rhs => rw [partLoop]
      simp only [hleft, if_true] at h ⊢
      cases hread : tempFile.ReadFull (bufLen pre left) with
      | error err => rfl
      | ok v =>
        obtain ⟨bytes, tempFile1⟩ := v
        simp only [hread] at h ⊢
        cases hpart : UpPart env pre file.GetMIMEType partNumber bytes account w with
        | mk resp w1 =>
          simp only [hpart] at h ⊢
          cases resp with
          | error err => rfl
          | ok m =>
            simp only at h ⊢
            by_cases hm : m = "finish"
            · simp only [hm, if_true]
            · simp only [hm, if_false] at h ⊢
              exact ih _ _ _ _ _ h
    · rw [partLoop]
      conv_rhs => rw [partLoop]
      simp only [hleft, if_false]

/-- A call of `Upload` that has returned is the same for every larger amount
of fuel: the result, the calls and the final state do not depend on `extra`
any more. -/
theorem Upload_fuel_succ (env : Collab) (extra : Nat) (file : Option model.FileStream)
    (account : model.Account) (w : World)
    (h : (Upload env extra file account w).1 ≠ none) :
    Upload env (extra + 1) file account w = Upload env extra file account w := by
  cases file with
  | none => rfl
  | some file =>
    simp only [Upload] at h ⊢
    cases hF : File env file.ParentPath account w with
    | none => rfl
    | some v =>
      obtain ⟨r, w1⟩ := v
      cases r with
      | error err => rfl
      | ok parentFile =>
        simp only [hF] at h ⊢
        cases hT : ioutil.TempFile env w1 with
        | mk rt w2 =>
          cases rt with
          | error err => rfl
          | ok tempFile =>
            simp only [hT] at h ⊢
            have hs : (uploadSession env extra file parentFile account tempFile w2).1 ≠ none →
                uploadSession env (extra + 1) file parentFile account tempFile w2 =
                  uploadSession env extra file parentFile account tempFile w2 := by
              intro hne
              unfold uploadSession at hne ⊢
              cases hstage : stage env w2.trace file tempFile with
              | error err => rfl
              | ok v =>
                obtain ⟨md5Str, sha1Str, tempFile1⟩ := v
                simp only [hstage] at hne ⊢
                cases hpre : UpPre env file parentFile.Id account w2 with
                | mk rp w3 =>
                  cases rp with
                  | error err => rfl
                  | ok pre =>
                    simp only [hpre] at hne ⊢
                    cases hhash : UpHash env md5Str sha1Str pre.Data.TaskId account w3 with
                    | mk rh w4 =>
                      cases rh with
                      | error err => rfl
                      | ok finish =>
                        simp only [hhash] at hne ⊢
                        cases finish with
                        | true => rfl
                        | false =>
                          simp only [Bool.false_eq_true, if_false] at hne ⊢
                          cases hmake : runtime.makeslice env pre.Metadata.PartSize w4 with
                          | mk rm w5 =>
                            cases rm with
                            | lenOutOfRange => rfl
                            | outOfMemory => rfl
                            | ok =>
                              simp only [hmake] at hne ⊢
                              rw [← Nat.add_assoc]
                              exact partLoop_fuel_succ env pre file account _ _ _ _ _ _ hne
            cases hres : uploadSession env extra file parentFile account tempFile w2 with
            | mk rs w3 =>
              cases rs with
              | none => simp [hres] at h
              | some r =>
                rw [hs (by rw [hres]; simp), hres]

/-- A call of `Upload` that has not returned: either the process died for want
of memory, or the part size is 0 and the loop has made all the part uploads it
was given iterations for (the declared size plus `extra`), every one of them
answered by a token, with no commit yet, so that the Go loop is still running
too. With enough iterations a run that ends is therefore reproduced to its
end. -/
theorem Upload_pending (env : Collab) (extra : Nat) (file : Option model.FileStream)
    (account : model.Account) (w : World) (evs : List Event)
    (hevs : (Upload env extra file account w).2.trace = w.trace ++ evs)
    (hnone : (Upload env extra file account w).1 = none) :
    (∃ len, (len, MakeResult.outOfMemory) ∈ makeCalls evs) ∨
    (∃ f pre, file = some f ∧ Except.ok pre ∈ preCalls evs ∧ pre.Metadata.PartSize = 0 ∧
      (partCalls evs).length = (int64 f.GetSize).toNat + extra ∧
      (∀ c ∈ partCalls evs, isToken c.resp = true) ∧ commitCalls evs = []) := by
  obtain ⟨hrun, _⟩ := Upload_events env extra _ account w evs hevs
  have hrun' := hrun
  rw [hnone] at hrun'
  rcases UploadRun_session env account w _ evs _ hrun' with h0 | h1
  · exact absurd rfl h0.2.2.2.2.2.2.2
  · obtain ⟨f, parentId, hist, name, evsS, hf, hs, e1, e2, _, _, e5, _, _, e8⟩ := h1
    cases hs with
    | noMemory md5Str sha1Str tempFile1 pre hstage =>
      left
      rw [e8]
      exact ⟨pre.Metadata.PartSize, by simp [makeCalls, Event.makeCall?]⟩
    | parts md5Str sha1Str tempFile1 pre evsL r hstage hp hloop =>
      obtain ⟨h1, h2, h3⟩ := LoopRun_none _ _ _ _ _ _ _ _ _ hloop rfl
      have hmake : ∀ len, (len, MakeResult.outOfMemory) ∉ makeCalls evs := by
        intro len hmem
        rw [e8] at hmem
        have := (LoopRun_calls _ _ _ _ _ _ _ _ _ hloop).2.2.2.2.2
        simp only [makeCalls] at this
        simp [makeCalls, Event.makeCall?, this] at hmem
      subst hf
      right
      refine ⟨f, pre, rfl, ?_, by omega,
        Upload_count env extra f account w evs hevs hnone hmake, ?_, ?_⟩
      · rw [e5]; simp [preCalls, Event.preCall?]
      · rw [e1]; simpa [partCalls, Event.partCall?] using h2
      · rw [e2]; simpa [commitCalls, Event.commitCall?] using h3

end uc
/-! ## Claims about `Upload` -/

theorem isToken_iff (resp : Except Error String) :
    isToken resp = true ↔ ∃ m, resp = .ok m ∧ m ≠ "finish" := by
  cases resp with
  | error e => simp [isToken]
  | ok m => simp [isToken]

theorem ioutil.freshName_not_mem (temps : List Nat) (r : Nat) :
    ioutil.freshName temps r ∉ temps := by
  have hle : ∀ x ∈ temps, x ≤ temps.foldr max 0 := by
    induction temps with
    | nil => simp
    | cons a rest ih =>
      intro x hx
      simp only [List.foldr_cons]
      rcases List.mem_cons.mp hx with hx | hx
      · rw [hx]; exact le_max_left _ _
      · exact le_trans (ih x hx) (le_max_right _ _)
  intro hmem
  have := hle _ hmem
  unfold ioutil.freshName at this
  omega

namespace uc

/-- C1 (as stated, refuted): the remote answers the part size `2^62` for a
stream of three bytes, all staged; the hash check answers `false` and no part
upload fails or returns the sentinel. The claim has `⌈3/2^62⌉ = 1` part
upload, but allocating the part buffer panics (the length is above what the
run time can allocate) and `Upload` ends without any part upload. -/
theorem C1_counterexample :
    Except.ok ⟨⟨"task"⟩, ⟨2 ^ 62⟩⟩ ∈
      preCalls (Upload demo.envHuge 0 (some demo.stream) demo.account demo.world).2.trace ∧
    ("03", "0303", Except.ok false) ∈
      hashCalls (Upload demo.envHuge 0 (some demo.stream) demo.account demo.world).2.trace ∧
    (int64 demo.stream.GetSize).toNat ≤ demo.stream.File.length ∧
    ((int64 demo.stream.GetSize).toNat + 2 ^ 62 - 1) / 2 ^ 62 = 1 ∧
    makeCalls (Upload demo.envHuge 0 (some demo.stream) demo.account demo.world).2.trace =
      [(2 ^ 62, MakeResult.lenOutOfRange)] ∧
    partCalls (Upload demo.envHuge 0 (some demo.stream) demo.account demo.world).2.trace = [] ∧
    (Upload demo.envHuge 0 (some demo.stream) demo.account demo.world).1 =
      some (.error Error.runtimePanic) := by
  decide

/-- C1 (amended): take an `Upload` run, `evs` being the calls it made. Let `n ≥ 0`
be the declared size as the loop sees it (`int64(file.GetSize())`; a negative
value counts as 0, the loop being skipped) and `p ≥ 1` the part size the
pre-negotiation answered, and let the buffer of `p` bytes have been allocated
(`make([]byte, p)` succeeded). If the staged payload holds at least `n` bytes,
the hash check answered `false`, and every part upload of the run was answered
by a token (no failure, no sentinel), then the run made exactly `⌈n/p⌉` part
uploads, the call at position `k` (counting from 0) carried exactly
`min(p, n - k·p)` bytes, and the buffers, concatenated in call order, are the
first `n` bytes of the payload. In particular `n = p` gives exactly one part. -/
theorem C1_parts_are_the_chunks (env : Collab) (extra : Nat) (file : model.FileStream)
    (account : model.Account) (w : World) (evs : List Event) (pre : UpPreResp)
    (md5 sha1 : String)
    (hevs : (Upload env extra (some file) account w).2.trace = w.trace ++ evs)
    (hpre : Except.ok pre ∈ preCalls evs)
    (hp : 1 ≤ pre.Metadata.PartSize)
    (hbuf : (pre.Metadata.PartSize, MakeResult.ok) ∈ makeCalls evs)
    (hstaged : (int64 file.GetSize).toNat ≤ file.File.length)
    (hhash : (md5, sha1, Except.ok false) ∈ hashCalls evs)
    (hparts : ∀ c ∈ partCalls evs, isToken c.resp = true) :
    (partCalls evs).length =
      ((int64 file.GetSize).toNat + pre.Metadata.PartSize.toNat - 1) /
        pre.Metadata.PartSize.toNat ∧
    (∀ k c, (partCalls evs)[k]? = some c →
      c.bytes.length = min pre.Metadata.PartSize.toNat
        ((int64 file.GetSize).toNat - k * pre.Metadata.PartSize.toNat)) ∧
    ((partCalls evs).map (fun c => c.bytes)).flatten =
      file.File.take (int64 file.GetSize).toNat ∧
    ((int64 file.GetSize).toNat = pre.Metadata.PartSize.toNat → (partCalls evs).length = 1) := by
  obtain ⟨hrun, _⟩ := Upload_events env extra _ account w evs hevs
  rcases UploadRun_session env account w _ evs _ hrun with h0 | h1
  · rw [h0.2.2.2.1] at hhash
    simp at hhash
  · obtain ⟨f, parentId, hist, name, evsS, hf, hs, e1, _, _, e4, e5, _, _, e8⟩ := h1
    cases hf
    rw [e4] at hhash
    rw [e5] at hpre
    rw [e8] at hbuf
    obtain ⟨evsL, hloop, l1, _, _⟩ := SessionRun_loop env file parentId account hist name evsS _
      hs md5 sha1 hhash pre hpre hbuf
    rw [e1, l1] at hparts ⊢
    obtain ⟨tokens, t1, _, t3, t4, t5, _⟩ := LoopRun_clean pre file account hp _ _ _ _ _ _ hloop
      (fun c hc => (isToken_iff _).mp (hparts c hc)) (by simpa using hstaged)
    have hlen : (partCalls evsL).length = tokens.length := by
      have := congrArg List.length t1
      simpa using this
    refine ⟨by rw [hlen, t4], ?_, by simpa using t5, ?_⟩
    · intro k c hk
      have hlt : k < (partCalls evsL).length := by
        rcases Nat.lt_or_ge k (partCalls evsL).length with h | h
        · exact h
        · rw [List.getElem?_eq_none h] at hk
          cases hk
      have := congrArg (fun l => l[k]?) t3
      simp only [List.getElem?_map, hk, Option.map_some', List.getElem?_range (hlen ▸ hlt)] at this
      exact Option.some.inj this
    · intro heq
      rw [hlen, t4, heq]
      have hP : 1 ≤ pre.Metadata.PartSize.toNat := by omega
      apply Nat.div_eq_of_lt_le <;> omega

/-- The assumptions of C1 hold on the small concrete system, and with them its
conclusion. -/
theorem C1_parts_are_the_chunks_witness :
    (Upload demo.env 0 (some demo.stream) demo.account demo.world).2.trace =
      demo.world.trace ++ demo.uploadCalls ∧
    Except.ok demo.pre ∈ preCalls demo.uploadCalls ∧
    1 ≤ demo.pre.Metadata.PartSize ∧
    (demo.pre.Metadata.PartSize, MakeResult.ok) ∈ makeCalls demo.uploadCalls ∧
    (int64 demo.stream.GetSize).toNat ≤ demo.stream.File.length ∧
    ("03", "0303", Except.ok false) ∈ hashCalls demo.uploadCalls ∧
    (∀ c ∈ partCalls demo.uploadCalls, isToken c.resp = true) ∧
    (partCalls demo.uploadCalls).length =
      ((int64 demo.stream.GetSize).toNat + demo.pre.Metadata.PartSize.toNat - 1) /
        demo.pre.Metadata.PartSize.toNat :=
  ⟨by decide, by decide, by decide, by decide, by decide, by decide, by decide,
   (C1_parts_are_the_chunks demo.env 0 demo.stream demo.account demo.world demo.uploadCalls
      demo.pre "03" "0303" (by decide) (by decide) (by decide) (by decide) (by decide)
      (by decide) (by decide)).1⟩

/-- C2 (as stated, refuted): runs in which the hash check answers `false` and
no part upload fails or returns the sentinel. In the first the stream delivers
three bytes although five were declared: after one part the read of the staged
file fails and `Upload` returns that error without ever calling commit. In the
second the commit call fails and `Upload` returns without calling finish. In
the third and the fourth the remote answers a negative part size, respectively
the part size `2^62`, and allocating the buffer panics before any part upload
or commit. In the fifth the part size is 0 and the remote takes every part:
after five part uploads the loop is still running and no commit was made. -/
theorem C2_counterexample :
    (("03", "0303", Except.ok false) ∈
        hashCalls (Upload demo.env 0 (some demo.streamShort) demo.account demo.world).2.trace ∧
      (∀ c ∈ partCalls
          (Upload demo.env 0 (some demo.streamShort) demo.account demo.world).2.trace,
        isToken c.resp = true) ∧
      (Upload demo.env 0 (some demo.streamShort) demo.account demo.world).1 =
        some (.error Error.ErrUnexpectedEOF) ∧
      commitCalls (Upload demo.env 0 (some demo.streamShort) demo.account demo.world).2.trace =
        []) ∧
    (("03", "0303", Except.ok false) ∈
        hashCalls
          (Upload demo.envCommitDown 0 (some demo.stream) demo.account demo.world).2.trace ∧
      (∀ c ∈ partCalls
          (Upload demo.envCommitDown 0 (some demo.stream) demo.account demo.world).2.trace,
        isToken c.resp = true) ∧
      commitCalls
          (Upload demo.envCommitDown 0 (some demo.stream) demo.account demo.world).2.trace =
        [(["t1", "t2"], .error (Error.remote 500))] ∧
      finishCalls
          (Upload demo.envCommitDown 0 (some demo.stream) demo.account demo.world).2.trace =
        []) ∧
    (("03", "0303", Except.ok false) ∈
        hashCalls
          (Upload demo.envNegative 0 (some demo.stream) demo.account demo.world).2.trace ∧
      partCalls (Upload demo.envNegative 0 (some demo.stream) demo.account demo.world).2.trace =
        [] ∧
      (Upload demo.envNegative 0 (some demo.stream) demo.account demo.world).1 =
        some (.error Error.runtimePanic) ∧
      commitCalls (Upload demo.envNegative 0 (some demo.stream) demo.account demo.world).2.trace =
        []) ∧
    (("03", "0303", Except.ok false) ∈
        hashCalls (Upload demo.envHuge 0 (some demo.stream) demo.account demo.world).2.trace ∧
      partCalls (Upload demo.envHuge 0 (some demo.stream) demo.account demo.world).2.trace =
        [] ∧
      (Upload demo.envHuge 0 (some demo.stream) demo.account demo.world).1 =
        some (.error Error.runtimePanic) ∧
      commitCalls (Upload demo.envHuge 0 (some demo.stream) demo.account demo.world).2.trace =
        []) ∧
    (("03", "0303", Except.ok false) ∈
        hashCalls
          (Upload demo.envZeroForever 2 (some demo.stream) demo.account demo.world).2.trace ∧
      (∀ c ∈ partCalls
          (Upload demo.envZeroForever 2 (some demo.stream) demo.account demo.world).2.trace,
        isToken c.resp = true) ∧
      (partCalls
          (Upload demo.envZeroForever 2 (some demo.stream) demo.account
            demo.world).2.trace).length = 5 ∧
      (Upload demo.envZeroForever 2 (some demo.stream) demo.account demo.world).1 = none ∧
      commitCalls
          (Upload demo.envZeroForever 2 (some demo.stream) demo.account demo.world).2.trace =
        []) := by
  refine ⟨?_, ?_, ?_, ?_, ?_⟩ <;> decide

/-- C2 (amended): take an `Upload` run, `evs` being the calls it made, in which
the hash check answered `false`, every part upload was answered by a token,
the part size is at least 1, the buffer of that size was allocated
(`make([]byte, partSize)` succeeded) and the staged payload holds the declared
size (so that every read of a chunk succeeds). Then the part uploads carry the part
numbers 1, 2, 3, ... in call order; after them commit is called exactly once,
with the tokens the part uploads returned, in call order; and finish is called,
right after, exactly when the commit succeeded (`Upload` then returns what
finish answered, and otherwise the error of the commit). For a declared size
of 0 there is no part upload and commit gets the empty list. -/
theorem C2_commit_gets_the_tokens (env : Collab) (extra : Nat) (file : model.FileStream)
    (account : model.Account) (w : World) (evs : List Event) (pre : UpPreResp)
    (md5 sha1 : String)
    (hevs : (Upload env extra (some file) account w).2.trace = w.trace ++ evs)
    (hpre : Except.ok pre ∈ preCalls evs)
    (hp : 1 ≤ pre.Metadata.PartSize)
    (hbuf : (pre.Metadata.PartSize, MakeResult.ok) ∈ makeCalls evs)
    (hstaged : (int64 file.GetSize).toNat ≤ file.File.length)
    (hhash : (md5, sha1, Except.ok false) ∈ hashCalls evs)
    (hparts : ∀ c ∈ partCalls evs, isToken c.resp = true) :
    ∃ tokens : List String,
      (partCalls evs).map (fun c => c.resp) = tokens.map Except.ok ∧
      (partCalls evs).map (fun c => c.partNumber) =
        (List.range tokens.length).map (fun k : Nat => (k : Int) + 1) ∧
      (int64 file.GetSize ≤ 0 → partCalls evs = [] ∧ tokens = []) ∧
      ∃ cresp fin,
        transferCalls evs = partEvents evs ++ Event.UpCommit pre tokens account cresp :: fin ∧
        ((∃ err, cresp = .error err ∧ fin = [] ∧
            (Upload env extra (some file) account w).1 = some (.error err)) ∨
         (cresp = .ok () ∧ ∃ fresp, fin = [Event.UpFinish pre account fresp] ∧
            (Upload env extra (some file) account w).1 = some fresp)) := by
  obtain ⟨hrun, _⟩ := Upload_events env extra _ account w evs hevs
  rcases UploadRun_session env account w _ evs _ hrun with h0 | h1
  · rw [h0.2.2.2.1] at hhash
    simp at hhash
  · obtain ⟨f, parentId, hist, name, evsS, hf, hs, e1, _, _, e4, e5, e6, e7, e8⟩ := h1
    cases hf
    rw [e4] at hhash
    rw [e5] at hpre
    rw [e8] at hbuf
    obtain ⟨evsL, hloop, l1, l2, l3⟩ := SessionRun_loop env file parentId account hist name
      evsS _ hs md5 sha1 hhash pre hpre hbuf
    have l4 : transferCalls evsL = evsL := (LoopRun_calls _ _ _ _ _ _ _ _ _ hloop).2.2.2.2.1
    rw [e1, l1] at hparts ⊢
    rw [e6, e7, l2, l3]
    obtain ⟨tokens, t1, t2, _, t4, _, cresp, fin, t6, t7⟩ := LoopRun_clean pre file account hp
      _ _ _ _ _ _ hloop (fun c hc => (isToken_iff _).mp (hparts c hc)) (by simpa using hstaged)
    have hlen : (partCalls evsL).length = tokens.length := by
      have := congrArg List.length t1
      simpa using this
    refine ⟨tokens, t1, ?_, ?_, cresp, fin, ?_, t7⟩
    · rw [t2]
      apply List.map_congr_left
      intro k _
      ring
    · intro hzero
      have h0 : (int64 file.GetSize).toNat = 0 := by omega
      have hP : 1 ≤ pre.Metadata.PartSize.toNat := by omega
      have ht : tokens.length = 0 := by
        rw [t4, h0]
        exact Nat.div_eq_of_lt (by omega)
      exact ⟨List.length_eq_zero.mp (hlen.trans ht), List.length_eq_zero.mp ht⟩
    · rw [l4] at t6
      simpa using t6

/-- The assumptions of C2 hold on the small concrete system, and with them its
conclusion. -/
theorem C2_commit_gets_the_tokens_witness :
    (Upload demo.env 0 (some demo.stream) demo.account demo.world).2.trace =
      demo.world.trace ++ demo.uploadCalls ∧
    Except.ok demo.pre ∈ preCalls demo.uploadCalls ∧
    1 ≤ demo.pre.Metadata.PartSize ∧
    (demo.pre.Metadata.PartSize, MakeResult.ok) ∈ makeCalls demo.uploadCalls ∧
    (int64 demo.stream.GetSize).toNat ≤ demo.stream.File.length ∧
    ("03", "0303", Except.ok false) ∈ hashCalls demo.uploadCalls ∧
    (∀ c ∈ partCalls demo.uploadCalls, isToken c.resp = true) ∧
    ∃ tokens : List String,
      (partCalls demo.uploadCalls).map (fun c => c.resp) = tokens.map Except.ok ∧
      (partCalls demo.uploadCalls).map (fun c => c.partNumber) =
        (List.range tokens.length).map (fun k : Nat => (k : Int) + 1) ∧
      (int64 demo.stream.GetSize ≤ 0 → partCalls demo.uploadCalls = [] ∧ tokens = []) ∧
      ∃ cresp fin,
        transferCalls demo.uploadCalls =
          partEvents demo.uploadCalls ++ Event.UpCommit demo.pre tokens demo.account cresp :: fin ∧
        ((∃ err, cresp = .error err ∧ fin = [] ∧
            (Upload demo.env 0 (some demo.stream) demo.account demo.world).1 =
              some (.error err)) ∨
         (cresp = .ok () ∧ ∃ fresp, fin = [Event.UpFinish demo.pre demo.account fresp] ∧
            (Upload demo.env 0 (some demo.stream) demo.account demo.world).1 = some fresp)) :=
  ⟨by decide, by decide, by decide, by decide, by decide, by decide, by decide,
   C2_commit_gets_the_tokens demo.env 0 demo.stream demo.account demo.world demo.uploadCalls
     demo.pre "03" "0303" (by decide) (by decide) (by decide) (by decide) (by decide)
     (by decide) (by decide)⟩

/-- C3: take an `Upload` run, `evs` being the calls it made, in which the hash
check was reached (so parent resolution, staging, hashing and pre-negotiation
succeeded) and answered "already complete". Then `Upload` returns success, and
the run contains no part upload, no commit and no finish, whatever the payload
size and the part size are. -/
theorem C3_known_content_skips_transfer (env : Collab) (extra : Nat)
    (file : Option model.FileStream) (account : model.Account) (w : World) (evs : List Event)
    (md5 sha1 : String)
    (hevs : (Upload env extra file account w).2.trace = w.trace ++ evs)
    (hhash : (md5, sha1, Except.ok true) ∈ hashCalls evs) :
    (Upload env extra file account w).1 = some (.ok ()) ∧ partCalls evs = [] ∧
      commitCalls evs = [] ∧ finishCalls evs = [] := by
  obtain ⟨hrun, _⟩ := Upload_events env extra _ account w evs hevs
  rcases UploadRun_session env account w _ evs _ hrun with h0 | h1
  · rw [h0.2.2.2.1] at hhash
    simp at hhash
  · obtain ⟨f, parentId, hist, name, evsS, _, hs, e1, e2, e3, e4, _⟩ := h1
    rw [e4] at hhash
    rw [e1, e2, e3]
    exact SessionRun_known env f parentId account hist _ evsS _ hs md5 sha1 hhash

/-- The assumptions of C3 hold on the small concrete system, and with them its
conclusion. -/
theorem C3_known_content_skips_transfer_witness :
    (Upload demo.envKnown 0 (some demo.stream) demo.account demo.world).2.trace =
      demo.world.trace ++ demo.uploadCallsKnown ∧
    ("03", "0303", Except.ok true) ∈ hashCalls demo.uploadCallsKnown ∧
    (Upload demo.envKnown 0 (some demo.stream) demo.account demo.world).1 = some (.ok ()) ∧
    partCalls demo.uploadCallsKnown = [] ∧ commitCalls demo.uploadCallsKnown = [] ∧
    finishCalls demo.uploadCallsKnown = [] :=
  ⟨by decide, by decide,
   C3_known_content_skips_transfer demo.envKnown 0 (some demo.stream) demo.account demo.world
     demo.uploadCallsKnown "03" "0303" (by decide) (by decide)⟩

/-- C4: take an `Upload` run, `evs` being the calls it made, in which the `k`-th
part upload (`k ≥ 1`) was answered by the sentinel `finish`. Then `Upload`
returns success, that call is the last part upload (exactly `k` were made), and
the run contains neither a commit nor a finish. (A sentinel answer is always
the first one of its run, so "the first to return the sentinel" needs no
separate assumption.) This holds for every amount of fuel: a run of the Go
code whose `k`-th part upload returns the sentinel is reproduced as soon as the
loop is given `k` iterations, also with the part size 0. -/
theorem C4_sentinel_ends_the_upload (env : Collab) (extra : Nat)
    (file : Option model.FileStream) (account : model.Account) (w : World) (evs : List Event)
    (k : Nat) (c : PartCall)
    (hevs : (Upload env extra file account w).2.trace = w.trace ++ evs)
    (hk : 1 ≤ k)
    (hcall : (partCalls evs)[k - 1]? = some c)
    (hsentinel : c.resp = .ok "finish") :
    (Upload env extra file account w).1 = some (.ok ()) ∧ (partCalls evs).length = k ∧
      commitCalls evs = [] ∧ finishCalls evs = [] := by
  obtain ⟨hrun, _⟩ := Upload_events env extra _ account w evs hevs
  rcases UploadRun_session env account w _ evs _ hrun with h0 | h1
  · rw [h0.1] at hcall
    simp at hcall
  · obtain ⟨f, parentId, hist, name, evsS, _, hs, e1, e2, e3, _⟩ := h1
    rw [e1] at hcall
    rw [e1, e2, e3]
    obtain ⟨h1, h2, h3, h4⟩ := SessionRun_sentinel env f parentId account hist _ evsS _ hs
      (k - 1) c hcall hsentinel
    exact ⟨h1, by omega, h3, h4⟩

/-- The assumptions of C4 hold on two concrete runs, and with them its
conclusion: a run with parts of two bytes whose second part upload returns the
sentinel, and a run with the part size 0 and three bytes declared whose fourth
part upload returns the sentinel. -/
theorem C4_sentinel_ends_the_upload_witness :
    ((Upload demo.envSentinel 0 (some demo.streamFive) demo.account demo.world).2.trace =
        demo.world.trace ++ demo.uploadCallsSentinel ∧
      1 ≤ 2 ∧
      (partCalls demo.uploadCallsSentinel)[2 - 1]? = some ⟨2, [30, 40], .ok "finish"⟩ ∧
      (Upload demo.envSentinel 0 (some demo.streamFive) demo.account demo.world).1 =
        some (.ok ()) ∧
      (partCalls demo.uploadCallsSentinel).length = 2 ∧
      commitCalls demo.uploadCallsSentinel = [] ∧ finishCalls demo.uploadCallsSentinel = []) ∧
    ((Upload demo.envZero 1 (some demo.stream) demo.account demo.world).2.trace =
        demo.world.trace ++ demo.uploadCallsZero ∧
      1 ≤ 4 ∧
      (partCalls demo.uploadCallsZero)[4 - 1]? = some ⟨4, [], .ok "finish"⟩ ∧
      (Upload demo.envZero 1 (some demo.stream) demo.account demo.world).1 = some (.ok ()) ∧
      (partCalls demo.uploadCallsZero).length = 4 ∧
      commitCalls demo.uploadCallsZero = [] ∧ finishCalls demo.uploadCallsZero = []) :=
  ⟨⟨by decide, by decide, by decide,
    C4_sentinel_ends_the_upload demo.envSentinel 0 (some demo.streamFive) demo.account
      demo.world demo.uploadCallsSentinel 2 ⟨2, [30, 40], .ok "finish"⟩ (by decide) (by decide)
      (by decide) rfl⟩,
   ⟨by decide, by decide, by decide,
    C4_sentinel_ends_the_upload demo.envZero 1 (some demo.stream) demo.account demo.world
      demo.uploadCallsZero 4 ⟨4, [], .ok "finish"⟩ (by decide) (by decide) (by decide) rfl⟩⟩

/-- C5: let `P` be the payload the stream delivers. Staging a stream that ends
cleanly, with no local step failing, yields the hex encodings of `MD5(P)` and
`SHA1(P)`, each digest taken over the whole of `P` (each pass reads the staged
file from offset 0 to its end), and leaves the handle with content `P` and the
offset back at 0 for the chunk loop. And in every `Upload` run, every
hash-check call carries exactly these two digests. -/
theorem C5_digests_of_whole_payload (env : Collab) (extra : Nat) (file : model.FileStream)
    (account : model.Account) (w : World) (evs : List Event)
    (hevs : (Upload env extra (some file) account w).2.trace = w.trace ++ evs) :
    (∀ h name, file.ReadErr = none → (∀ s, env.LocalErr h s = none) →
      stage env h file { name := name, content := [], offset := 0 } =
        .ok (hex.EncodeToString (env.MD5 file.File), hex.EncodeToString (env.SHA1 file.File),
             { name := name, content := file.File, offset := 0 })) ∧
    (∀ md5 sha1 resp, (md5, sha1, resp) ∈ hashCalls evs →
      md5 = hex.EncodeToString (env.MD5 file.File) ∧
      sha1 = hex.EncodeToString (env.SHA1 file.File)) := by
  refine ⟨fun h name hread hlocal => stage_eq env h file name hread hlocal, ?_⟩
  intro md5 sha1 resp hmem
  obtain ⟨hrun, _⟩ := Upload_events env extra _ account w evs hevs
  rcases UploadRun_session env account w _ evs _ hrun with h0 | h1
  · rw [h0.2.2.2.1] at hmem
    simp at hmem
  · obtain ⟨f, parentId, hist, name, evsS, hf, hs, _, _, _, e4, _⟩ := h1
    cases hf
    rw [e4] at hmem
    exact SessionRun_digests env file parentId account hist name evsS _ hs md5 sha1 resp hmem

/-- The assumptions of C5 hold on the small concrete system, and with them its
conclusion. -/
theorem C5_digests_of_whole_payload_witness :
    (Upload demo.env 0 (some demo.stream) demo.account demo.world).2.trace =
      demo.world.trace ++ demo.uploadCalls ∧
    demo.stream.ReadErr = none ∧
    stage demo.env [] demo.stream { name := 1, content := [], offset := 0 } =
      .ok ("03", "0303", { name := 1, content := [10, 20, 30], offset := 0 }) ∧
    ("03", "0303", Except.ok false) ∈ hashCalls demo.uploadCalls ∧
    "03" = hex.EncodeToString (demo.env.MD5 demo.stream.File) ∧
    "0303" = hex.EncodeToString (demo.env.SHA1 demo.stream.File) :=
  ⟨by decide, by decide,
   (C5_digests_of_whole_payload demo.env 0 demo.stream demo.account demo.world
      demo.uploadCalls (by decide)).1 [] 1 (by decide) (fun _ => rfl),
   by decide,
   (C5_digests_of_whole_payload demo.env 0 demo.stream demo.account demo.world
      demo.uploadCalls (by decide)).2 "03" "0303" (.ok false) (by decide)⟩

/-- C10 (as stated, refuted): an `Upload` call with a nil stream, and one whose
parent folder does not exist, return an error without creating any temporary
file; the claim had every call create exactly one. -/
theorem C10_counterexample :
    ((Upload demo.env 0 none demo.account demo.world).1 = some (.error Error.ErrEmptyFile) ∧
      tempCreated (Upload demo.env 0 none demo.account demo.world).2.trace = []) ∧
    ((Upload demo.env 0 (some demo.streamNowhere) demo.account demo.world).1 =
        some (.error Error.ErrPathNotFound) ∧
      tempCreated (Upload demo.env 0 (some demo.streamNowhere) demo.account demo.world).2.trace =
        []) := by
  decide

/-- C10 (amended): take an `Upload` call that returns, `evs` being the calls it
made. The set of temporary files after the call is the set before it; the call
created at most one temporary file, under a name not in use before, and
removed exactly what it created; and it created one exactly when the stream
is not nil, the parent folder resolved and `ioutil.TempFile` succeeded, that
is on every way out after that point (success, any error or panic, hash-check
early completion, sentinel completion), while a call that fails earlier
creates none. This holds for every amount of fuel: a call of the Go code that
returns after `k` part uploads is reproduced, returning, as soon as the loop
is given `k` iterations, also with the part size 0 (`Upload_fuel_succ`,
`Upload_pending`). -/
theorem C10_temp_file_is_removed (env : Collab) (extra : Nat) (file : Option model.FileStream)
    (account : model.Account) (w : World) (evs : List Event) (r : Except Error Unit)
    (hevs : (Upload env extra file account w).2.trace = w.trace ++ evs)
    (hret : (Upload env extra file account w).1 = some r) :
    (Upload env extra file account w).2.temps = w.temps ∧
    tempRemoved evs = tempCreated evs ∧
    (tempCreated evs).length ≤ 1 ∧
    (∀ name ∈ tempCreated evs, name ∉ w.temps) ∧
    ((tempCreated evs).length = 1 ↔
      ∃ f parentFile w1 rnd, file = some f ∧
        File env f.ParentPath account w = some (.ok parentFile, w1) ∧
        env.TempFile w1.trace = .ok rnd) := by
  obtain ⟨hrun, htemps⟩ := Upload_events env extra _ account w evs hevs
  refine ⟨htemps (by rw [hret]; simp), ?_⟩
  rw [hret] at hrun
  cases hrun with
  | nilFile => simp [tempCreated, tempRemoved]
  | noParent f evs err w1 hF hevs1 hall =>
    obtain ⟨_, _, _, _, _, h6, h7, _⟩ := getFiles_only evs hall
    rw [h6, h7]
    refine ⟨rfl, by simp, by simp, ?_⟩
    constructor
    · intro h; simp at h
    · rintro ⟨f', parentFile, w1', rnd, hf, hF', _⟩
      cases hf
      rw [hF] at hF'
      cases hF'
  | noTemp f evs parentFile w1 err hF hevs1 hall htemp =>
    obtain ⟨_, _, _, _, _, h6, h7, _⟩ := getFiles_only evs hall
    rw [h6, h7]
    refine ⟨rfl, by simp, by simp, ?_⟩
    constructor
    · intro h; simp at h
    · rintro ⟨f', parentFile', w1', rnd, hf, hF', htemp'⟩
      cases hf
      rw [hF] at hF'
      cases hF'
      rw [htemp] at htemp'
      cases htemp'
  | session f evs parentFile w1 rnd evsS r hF hevs1 hall htemp hs =>
    obtain ⟨_, _, _, _, _, h6, h7, _⟩ := getFiles_only evs hall
    obtain ⟨s1, s2⟩ := SessionRun_temps _ _ _ _ _ _ _ _ hs
    simp only [tempCreated, tempRemoved] at h6 h7 s1 s2
    have hc : tempCreated (evs ++ Event.TempFile (ioutil.freshName w.temps rnd) :: evsS ++
        [Event.Remove (ioutil.freshName w.temps rnd)]) = [ioutil.freshName w.temps rnd] := by
      simp [tempCreated, List.filterMap_append, Event.created?, h6, s1]
    have hr : tempRemoved (evs ++ Event.TempFile (ioutil.freshName w.temps rnd) :: evsS ++
        [Event.Remove (ioutil.freshName w.temps rnd)]) = [ioutil.freshName w.temps rnd] := by
      simp [tempRemoved, List.filterMap_append, Event.removed?, h7, s2]
    rw [hc, hr]
    refine ⟨rfl, by simp, ?_, ?_⟩
    · intro name hname
      simp only [List.mem_singleton] at hname
      rw [hname]
      exact ioutil.freshName_not_mem _ _
    · constructor
      · intro _
        exact ⟨f, parentFile, w1, rnd, rfl, hF, htemp⟩
      · intro _; rfl

/-- The assumptions of C10 hold on two concrete runs, and with them its
conclusion: a run ended by the sentinel on the second part, and a run with the
part size 0 and three bytes declared that returns on the sentinel of its fourth
part upload. -/
theorem C10_temp_file_is_removed_witness :
    ((Upload demo.envSentinel 0 (some demo.streamFive) demo.account demo.world).2.trace =
        demo.world.trace ++ demo.uploadCallsSentinel ∧
      (Upload demo.envSentinel 0 (some demo.streamFive) demo.account demo.world).1 =
        some (.ok ()) ∧
      (Upload demo.envSentinel 0 (some demo.streamFive) demo.account demo.world).2.temps =
        demo.world.temps ∧
      tempRemoved demo.uploadCallsSentinel = tempCreated demo.uploadCallsSentinel) ∧
    ((Upload demo.envZero 1 (some demo.stream) demo.account demo.world).2.trace =
        demo.world.trace ++ demo.uploadCallsZero ∧
      (Upload demo.envZero 1 (some demo.stream) demo.account demo.world).1 = some (.ok ()) ∧
      (Upload demo.envZero 1 (some demo.stream) demo.account demo.world).2.temps =
        demo.world.temps ∧
      tempRemoved demo.uploadCallsZero = tempCreated demo.uploadCallsZero) :=
  ⟨⟨by decide, by decide,
    (C10_temp_file_is_removed demo.envSentinel 0 (some demo.streamFive) demo.account demo.world
       demo.uploadCallsSentinel (.ok ()) (by decide) (by decide)).1,
    (C10_temp_file_is_removed demo.envSentinel 0 (some demo.streamFive) demo.account demo.world
       demo.uploadCallsSentinel (.ok ()) (by decide) (by decide)).2.1⟩,
   ⟨by decide, by decide,
    (C10_temp_file_is_removed demo.envZero 1 (some demo.stream) demo.account demo.world
       demo.uploadCallsZero (.ok ()) (by decide) (by decide)).1,
    (C10_temp_file_is_removed demo.envZero 1 (some demo.stream) demo.account demo.world
       demo.uploadCallsZero (.ok ()) (by decide) (by decide)).2.1⟩⟩

end uc
/-! ## Claims about path resolution and the listing cache -/

namespace uc

/-- C6 (as stated, refuted): on a remote whose root folder is empty, two `Files`
calls for `/` in a row, nothing invalidating the cache in between, issue two
remote listing calls for the same folder; the same happens when the listing
call fails. The claim allowed at most one. -/
theorem C6_counterexample :
    (runFiles demo.envEmpty [("/", demo.account), ("/", demo.account)] demo.world).map
        (fun w => w.trace) =
      some [Event.GetFiles "0" demo.account (.ok []), Event.GetFiles "0" demo.account (.ok [])] ∧
    (runFiles demo.envDown [("/", demo.account), ("/", demo.account)] demo.world).map
        (fun w => w.trace) =
      some [Event.GetFiles "0" demo.account (.error (Error.remote 500)),
            Event.GetFiles "0" demo.account (.error (Error.remote 500))] := by
  decide

/-- C6 (amended): once a `Files` call for a path and account has returned a
non-empty listing, then after any sequence of further `Files` calls (any paths,
any accounts, nothing else touching the cache) a `Files` call for that path and
account returns the same sequence and leaves the whole state, the call log
included, as it was: no remote listing is issued any more. -/
theorem C6_nonempty_listing_fetched_once (env : Collab) (path : String)
    (account : model.Account) (w w1 w2 : World) (files : List model.File)
    (calls : List (String × model.Account))
    (hfirst : Files env path account w = some (.ok files, w1)) (hne : files ≠ [])
    (hbetween : runFiles env calls w1 = some w2) :
    Files env path account w2 = some (.ok files, w2) := by
  have hc := Files_cached env path account w w1 files hfirst hne
  obtain ⟨w2', h2, hk⟩ := runFiles_keeps env calls w1
  rw [hbetween] at h2
  cases h2
  exact Files_hit env path account w2 files (hk _ _ hc)

/-- The assumptions of C6 hold on the small concrete system, and with them its
conclusion. -/
theorem C6_nonempty_listing_fetched_once_witness :
    Files demo.env "/" demo.account demo.world = some (.ok [demo.folderA], demo.worldRootListed) ∧
    [demo.folderA] ≠ [] ∧
    runFiles demo.env [("/a", demo.account), ("/", demo.account)] demo.worldRootListed =
      some demo.worldAListed ∧
    Files demo.env "/" demo.account demo.worldAListed =
      some (.ok [demo.folderA], demo.worldAListed) :=
  ⟨by decide, by decide, by decide,
   C6_nonempty_listing_fetched_once demo.env "/" demo.account demo.world demo.worldRootListed
     demo.worldAListed [demo.folderA] [("/a", demo.account), ("/", demo.account)]
     (by decide) (by decide) (by decide)⟩

/-- C7 (as stated, refuted): listing `/a` on a cold cache finds `a` empty and
returns the empty result, yet the cache is not left unchanged: the listing of
the root, fetched to resolve `/a`, has been stored. -/
theorem C7_counterexample :
    base.GetCache (utils.ParsePath "/a") demo.account demo.world = none ∧
    (Files demo.env "/a" demo.account demo.world).map (fun r => (r.1, r.2.cache)) =
      some (.ok [], [(("/", demo.account), [demo.folderA])]) ∧
    demo.world.cache = [] := by
  decide

/-- C7 (amended): when `Files` misses the cache, the folder entry of the path
resolves, and the remote listing is empty, `Files` returns the empty result and
stores nothing: the cache is what the resolution of the folder entry left (it
may have stored listings of ancestors), the path itself is still unbound, and
the next `Files` call for the path issues the remote listing again. When the
listing is not empty it is bound to the path and account. -/
theorem C7_empty_listing_not_stored (env : Collab) (path : String) (account : model.Account)
    (w w1 : World) (file : model.File)
    (hmiss : base.GetCache (utils.ParsePath path) account w = none)
    (hentry : File env (utils.ParsePath path) account w = some (.ok file, w1)) :
    (env.GetFiles w1.trace file.Id account = .ok [] →
      ∀ w2, w2 = w1.log (Event.GetFiles file.Id account (.ok [])) →
        Files env path account w = some (.ok [], w2) ∧
        w2.cache = w1.cache ∧
        base.GetCache (utils.ParsePath path) account w2 = none ∧
        ∃ r w3, Files env path account w2 = some (r, w3) ∧
          ∃ resp, w3.trace = w2.trace ++ [Event.GetFiles file.Id account resp]) ∧
    (∀ files, files ≠ [] → env.GetFiles w1.trace file.Id account = .ok files →
      ∃ w2, Files env path account w = some (.ok files, w2) ∧
        base.GetCache (utils.ParsePath path) account w2 = some files) := by
  have hfar : base.GetCache (utils.ParsePath path) account w1 = none := by
    have := (Fuel_cache_far env _).1 _ _ _ _ _ hentry (utils.ParsePath path, account)
      (by rw [utils.ParsePath_idem])
    simp only [base.GetCache] at hmiss ⊢
    rw [this, hmiss]
  constructor
  · intro hempty w2 hw2
    have hfirst : Files env path account w = some (.ok [], w2) := by
      rw [Files_eq, hmiss]
      simp only [hentry, GetFiles, hempty]
      simp [hw2]
    have hcache : w2.cache = w1.cache := by rw [hw2]; rfl
    have hmiss2 : base.GetCache (utils.ParsePath path) account w2 = none := by
      simp only [base.GetCache] at hfar ⊢
      rw [hcache]; exact hfar
    refine ⟨hfirst, hcache, hmiss2, ?_⟩
    have hstable := File_stable env _ account w w1 file hentry w2
      (by intro key v h; rw [hcache]; exact h)
    rw [Files_eq, hmiss2]
    simp only [hstable, GetFiles]
    cases hg : env.GetFiles w2.trace file.Id account with
    | error e => exact ⟨_, _, rfl, _, rfl⟩
    | ok fs =>
      simp only
      by_cases hlen : fs.length > 0
      · simp only [hlen, if_true]
        exact ⟨_, _, rfl, _, rfl⟩
      · simp only [hlen, if_false]
        exact ⟨_, _, rfl, _, rfl⟩
  · intro files hne hg
    have hlen : files.length > 0 := List.length_pos.mpr hne
    refine ⟨base.SetCache (utils.ParsePath path) files account
      (w1.log (Event.GetFiles file.Id account (.ok files))), ?_, ?_⟩
    · rw [Files_eq, hmiss]
      simp only [hentry, GetFiles, hg, hlen, if_true]
    · simp [base.GetCache, base.SetCache, Cache.get]

/-- The assumptions of C7 hold on the small concrete system, and with them its
conclusion. -/
theorem C7_empty_listing_not_stored_witness :
    (base.GetCache (utils.ParsePath "/a") demo.account demo.worldRootListed = none ∧
      File demo.env (utils.ParsePath "/a") demo.account demo.worldRootListed =
        some (.ok demo.folderA, demo.worldRootListed) ∧
      demo.env.GetFiles demo.worldRootListed.trace demo.folderA.Id demo.account = .ok [] ∧
      Files demo.env "/a" demo.account demo.worldRootListed = some (.ok [], demo.worldAListed) ∧
      demo.worldAListed.cache = demo.worldRootListed.cache ∧
      base.GetCache (utils.ParsePath "/a") demo.account demo.worldAListed = none) ∧
    (base.GetCache (utils.ParsePath "/") demo.account demo.world = none ∧
      File demo.env (utils.ParsePath "/") demo.account demo.world =
        some (.ok (rootFile demo.account), demo.world) ∧
      [demo.folderA] ≠ [] ∧
      demo.env.GetFiles demo.world.trace (rootFile demo.account).Id demo.account =
        .ok [demo.folderA] ∧
      ∃ w2, Files demo.env "/" demo.account demo.world = some (.ok [demo.folderA], w2) ∧
        base.GetCache (utils.ParsePath "/") demo.account w2 = some [demo.folderA]) :=
  ⟨⟨by decide, by decide, by decide,
    ((C7_empty_listing_not_stored demo.env "/a" demo.account demo.worldRootListed
       demo.worldRootListed demo.folderA (by decide) (by decide)).1 (by decide)
       demo.worldAListed (by decide)).1,
    by decide, by decide⟩,
   ⟨by decide, by decide, by decide, by decide,
    (C7_empty_listing_not_stored demo.env "/" demo.account demo.world demo.world
       (rootFile demo.account) (by decide) (by decide)).2 [demo.folderA] (by decide)
       (by decide)⟩⟩

/-- C8: for a normalised path other than `/`, split into directory and leaf
name: when the listing of the directory succeeds, `File` returns the first
entry of that listing, in listing order, whose name is the leaf, and it fails
with `ErrPathNotFound` exactly when no entry bears that name; when the listing
fails, `File` returns that error unchanged. The state is the one the listing
left. -/
theorem C8_file_scans_parent_listing (env : Collab) (path : String) (account : model.Account)
    (w : World) (hnorm : utils.ParsePath path = path) (hroot : path ≠ "/") :
    (∀ files w1, Files env (filepath.Split path).1 account w = some (.ok files, w1) →
      ((∃ g ∈ files, g.Name = (filepath.Split path).2) →
        ∃ before file after, files = before ++ file :: after ∧
          file.Name = (filepath.Split path).2 ∧
          (∀ g ∈ before, g.Name ≠ (filepath.Split path).2) ∧
          File env path account w = some (.ok file, w1)) ∧
      (File env path account w = some (.error Error.ErrPathNotFound, w1) ↔
        ∀ g ∈ files, g.Name ≠ (filepath.Split path).2)) ∧
    (∀ err w1, Files env (filepath.Split path).1 account w = some (.error err, w1) →
      File env path account w = some (.error err, w1)) := by
  constructor
  · intro files w1 hF
    have hfile : File env path account w =
        match lookupName (filepath.Split path).2 files with
        | some file => some (.ok file, w1)
        | none => some (.error Error.ErrPathNotFound, w1) := by
      rw [File_eq]
      simp only [hnorm, hroot, if_false, hF]
    constructor
    · intro hex
      cases hl : lookupName (filepath.Split path).2 files with
      | none =>
        obtain ⟨g, hg, hname⟩ := hex
        exact absurd hname ((lookupName_none _ _).mp hl g hg)
      | some file =>
        obtain ⟨before, after, h1, h2, h3⟩ := lookupName_some _ _ _ hl
        refine ⟨before, file, after, h1, h2, h3, ?_⟩
        rw [hfile, hl]
    · rw [hfile]
      cases hl : lookupName (filepath.Split path).2 files with
      | none =>
        simp only [true_iff]
        exact (lookupName_none _ _).mp hl
      | some file =>
        simp only [Option.some.injEq, Prod.mk.injEq, and_true]
        constructor
        · intro h; cases h
        · intro hall
          have := (lookupName_none _ _).mpr hall
          rw [hl] at this
          exact Option.noConfusion this
  · intro err w1 hF
    rw [File_eq]
    simp only [hnorm, hroot, if_false, hF]

/-- The assumptions of C8 hold on the small concrete system, and with them its
conclusion. -/
theorem C8_file_scans_parent_listing_witness :
    (utils.ParsePath "/a" = "/a" ∧ ("/a" : String) ≠ "/" ∧
      Files demo.env (filepath.Split "/a").1 demo.account demo.world =
        some (.ok [demo.folderA], demo.worldRootListed) ∧
      (∃ g ∈ [demo.folderA], g.Name = (filepath.Split "/a").2) ∧
      (∃ before file after, [demo.folderA] = before ++ file :: after ∧
        file.Name = (filepath.Split "/a").2 ∧
        (∀ g ∈ before, g.Name ≠ (filepath.Split "/a").2) ∧
        File demo.env "/a" demo.account demo.world = some (.ok file, demo.worldRootListed))) ∧
    (Files demo.envDown (filepath.Split "/a").1 demo.account demo.world =
        some (.error (Error.remote 500),
          demo.world.log (Event.GetFiles "0" demo.account (.error (Error.remote 500)))) ∧
      File demo.envDown "/a" demo.account demo.world =
        some (.error (Error.remote 500),
          demo.world.log (Event.GetFiles "0" demo.account (.error (Error.remote 500))))) :=
  ⟨⟨by decide, by decide, by decide, by decide,
    ((C8_file_scans_parent_listing demo.env "/a" demo.account demo.world (by decide)
       (by decide)).1 [demo.folderA] demo.worldRootListed (by decide)).1 (by decide)⟩,
   ⟨by decide,
    (C8_file_scans_parent_listing demo.envDown "/a" demo.account demo.world (by decide)
       (by decide)).2 _ _ (by decide)⟩⟩

/-- C9: for every account and in every state, `File("/")` succeeds with a folder
entry whose id is the account's configured root folder and whose size is 0. The
entry is built from the account alone, and the state (call log, cache,
temporary directory) is returned as it was: no remote call is made and the
cache is neither consulted nor written. -/
theorem C9_root_is_synthetic (env : Collab) (account : model.Account) (w : World) :
    File env "/" account w =
      some (.ok { Id := account.RootFolder, Name := account.Name, Size := 0,
                  Type_ := conf.FOLDER, Driver := "uc", UpdatedAt := account.UpdatedAt }, w) := by
  rw [File_eq]
  have : utils.ParsePath "/" = "/" := by decide
  simp only [this, if_true, rootFile, ConfigName]

end uc
